import Mathlib

/-!
# k8s-canary: the label-file provider, embedded in Lean

A shallow embedding of `app/service/info.go`, `app/models/info.go` and the error
path of `app/transport/endpoints.go` (`errorEncoder`, `err2code`).

Go strings are byte sequences; a byte is a natural number (below 256 for every
real input; nothing below depends on that bound).  The pieces of the Go
standard library that the provider calls (`strings.Index`, `strings.TrimSpace`,
`strings.Replace`, `bufio.Reader.ReadString`, `os.Getenv`, `os.Open`) are
modelled next to the code that uses them, `strings.TrimSpace` down to the UTF-8
decoder it relies on.
-/

set_option autoImplicit false

/-! ## Go strings -/

/-- A Go string: its bytes in order. -/
abbrev GoString := List Nat

/-- The Go string literal with the given ASCII text. -/
def lit (s : String) : GoString := s.data.map Char.toNat

/-- Slice expression s[lo:hi]. -/
def goSlice (s : GoString) (lo hi : Nat) : GoString := (s.take hi).drop lo

/-- Slice expression s[lo:]. -/
def goSliceFrom (s : GoString) (lo : Nat) : GoString := s.drop lo

/-! ## unicode/utf8 -/

/-- Constant utf8.RuneError. -/
def utf8.RuneError : Nat := 0xFFFD

/-- Constant utf8.RuneSelf: bytes below it are single-byte runes. -/
def utf8.RuneSelf : Nat := 0x80

/-- Constant utf8.UTFMax. -/
def utf8.UTFMax : Nat := 4

/-- Table utf8.first: information about the first byte of an encoding.
0xF0 is an ASCII byte, 0xF1 an invalid first byte; otherwise the low three bits
give the size and the high four bits index utf8.acceptRanges. -/
def utf8.first (b : Nat) : Nat :=
  if b < 0x80 then 0xF0
  else if b < 0xC2 then 0xF1
  else if b < 0xE0 then 0x02
  else if b = 0xE0 then 0x13
  else if b < 0xED then 0x03
  else if b = 0xED then 0x23
  else if b < 0xF0 then 0x03
  else if b = 0xF0 then 0x34
  else if b < 0xF4 then 0x04
  else if b = 0xF4 then 0x44
  else 0xF1

/-- Table utf8.acceptRanges: the (lo, hi) range allowed for the second byte. -/
def utf8.acceptRanges (i : Nat) : Nat × Nat :=
  match i with
  | 0 => (0x80, 0xBF)
  | 1 => (0xA0, 0xBF)
  | 2 => (0x80, 0x9F)
  | 3 => (0x90, 0xBF)
  | 4 => (0x80, 0x8F)
  | _ => (0, 0)

/-- Function utf8.DecodeRuneInString: the first rune of s and its width in
bytes; (RuneError, 0) for the empty string, (RuneError, 1) for an invalid
encoding. -/
def utf8.DecodeRuneInString (s : GoString) : Nat × Nat :=
  let n := s.length
  if n < 1 then (utf8.RuneError, 0)
  else
    let s0 := s.getD 0 0
    let x := utf8.first s0
    if x ≥ 0xF0 then
      -- the mask is all zeros for 0xF0 and all ones for 0xF1
      (if x % 2 = 0 then s0 else utf8.RuneError, 1)
    else
      let sz := x % 8
      let accept := utf8.acceptRanges (x / 16)
      if n < sz then (utf8.RuneError, 1)
      else
        let s1 := s.getD 1 0
        if s1 < accept.1 ∨ accept.2 < s1 then (utf8.RuneError, 1)
        else if sz ≤ 2 then (((s0 &&& 0x1F) <<< 6) ||| (s1 &&& 0x3F), 2)
        else
          let s2 := s.getD 2 0
          if s2 < 0x80 ∨ 0xBF < s2 then (utf8.RuneError, 1)
          else if sz ≤ 3 then
            (((s0 &&& 0x0F) <<< 12) ||| ((s1 &&& 0x3F) <<< 6) ||| (s2 &&& 0x3F), 3)
          else
            let s3 := s.getD 3 0
            if s3 < 0x80 ∨ 0xBF < s3 then (utf8.RuneError, 1)
            else
              (((s0 &&& 0x07) <<< 18) ||| ((s1 &&& 0x3F) <<< 12) |||
                ((s2 &&& 0x3F) <<< 6) ||| (s3 &&& 0x3F), 4)

/-- The body of utf8.DecodeRuneInString as a function of the length of the
string and of its first four bytes. -/
def decodeCore (n s0 s1 s2 s3 : Nat) : Nat × Nat :=
  if n < 1 then (utf8.RuneError, 0)
  else
    let x := utf8.first s0
    if x ≥ 0xF0 then
      (if x % 2 = 0 then s0 else utf8.RuneError, 1)
    else
      let sz := x % 8
      let accept := utf8.acceptRanges (x / 16)
      if n < sz then (utf8.RuneError, 1)
      else
        if s1 < accept.1 ∨ accept.2 < s1 then (utf8.RuneError, 1)
        else if sz ≤ 2 then (((s0 &&& 0x1F) <<< 6) ||| (s1 &&& 0x3F), 2)
        else
          if s2 < 0x80 ∨ 0xBF < s2 then (utf8.RuneError, 1)
          else if sz ≤ 3 then
            (((s0 &&& 0x0F) <<< 12) ||| ((s1 &&& 0x3F) <<< 6) ||| (s2 &&& 0x3F), 3)
          else
            if s3 < 0x80 ∨ 0xBF < s3 then (utf8.RuneError, 1)
            else
              (((s0 &&& 0x07) <<< 18) ||| ((s1 &&& 0x3F) <<< 12) |||
                ((s2 &&& 0x3F) <<< 6) ||| (s3 &&& 0x3F), 4)

/-- Function utf8.RuneStart: the byte is not a continuation byte. -/
def utf8.RuneStart (b : Nat) : Bool := decide (b &&& 0xC0 ≠ 0x80)

/-- The backwards scan of utf8.DecodeLastRuneInString for the start of the last
rune: from `start` down to `lim`, stopping at the first rune-start byte. -/
def utf8.scanStart (s : GoString) (lim : Int) : Nat → Int → Int
  | 0, start => start
  | fuel + 1, start =>
    if start ≥ lim then
      if utf8.RuneStart (s.getD start.toNat 0) then start
      else utf8.scanStart s lim fuel (start - 1)
    else start

/-- Function utf8.DecodeLastRuneInString: the last rune of s and its width. -/
def utf8.DecodeLastRuneInString (s : GoString) : Nat × Nat :=
  let «end» := s.length
  if «end» = 0 then (utf8.RuneError, 0)
  else
    let r := s.getD («end» - 1) 0
    if r < utf8.RuneSelf then (r, 1)
    else
      let lim : Int := max ((«end» : Int) - utf8.UTFMax) 0
      let start := utf8.scanStart s lim utf8.UTFMax ((«end» : Int) - 2)
      let start := if start < 0 then 0 else start
      let (r, size) := utf8.DecodeRuneInString (goSlice s start.toNat «end»)
      if start + size ≠ «end» then (utf8.RuneError, 1) else (r, size)

/-! ## unicode -/

/-- Function unicode.IsSpace: the Latin-1 cases of the switch, then the
White_Space range table. -/
def unicode.IsSpace (r : Nat) : Bool :=
  if r ≤ 0xFF then
    r = 0x09 ∨ r = 0x0A ∨ r = 0x0B ∨ r = 0x0C ∨ r = 0x0D ∨ r = 0x20 ∨ r = 0x85 ∨ r = 0xA0
  else
    r = 0x1680 ∨ (0x2000 ≤ r ∧ r ≤ 0x200A) ∨ (0x2028 ≤ r ∧ r ≤ 0x2029) ∨ r = 0x202F ∨
      r = 0x205F ∨ r = 0x3000

/-! ## strings -/

/-- The loop of strings.indexFunc, a range loop over the runes of s from byte
offset i: the offset of the first rune r with f r = truth, or -1. -/
def strings.indexFuncLoop (s : GoString) (f : Nat → Bool) (truth : Bool) : Nat → Nat → Int
  | 0, _ => -1
  | fuel + 1, i =>
    if i < s.length then
      let (r, size) := utf8.DecodeRuneInString (goSliceFrom s i)
      if f r = truth then (i : Int) else strings.indexFuncLoop s f truth fuel (i + size)
    else -1

/-- Function strings.indexFunc. -/
def strings.indexFunc (s : GoString) (f : Nat → Bool) (truth : Bool) : Int :=
  strings.indexFuncLoop s f truth s.length 0

/-- The loop of strings.lastIndexFunc, from the end offset i backwards. -/
def strings.lastIndexFuncLoop (s : GoString) (f : Nat → Bool) (truth : Bool) : Nat → Nat → Int
  | 0, _ => -1
  | fuel + 1, i =>
    if i > 0 then
      let (r, size) := utf8.DecodeLastRuneInString (goSlice s 0 i)
      let i := i - size
      if f r = truth then (i : Int) else strings.lastIndexFuncLoop s f truth fuel i
    else -1

/-- Function strings.lastIndexFunc. -/
def strings.lastIndexFunc (s : GoString) (f : Nat → Bool) (truth : Bool) : Int :=
  strings.lastIndexFuncLoop s f truth s.length s.length

/-- Function strings.TrimLeftFunc. -/
def strings.TrimLeftFunc (s : GoString) (f : Nat → Bool) : GoString :=
  let i := strings.indexFunc s f false
  if i = -1 then [] else goSliceFrom s i.toNat

/-- Function strings.TrimRightFunc. -/
def strings.TrimRightFunc (s : GoString) (f : Nat → Bool) : GoString :=
  let i := strings.lastIndexFunc s f false
  let i : Int :=
    if i ≥ 0 ∧ s.getD i.toNat 0 ≥ utf8.RuneSelf then
      i + (utf8.DecodeRuneInString (goSliceFrom s i.toNat)).2
    else i + 1
  goSlice s 0 i.toNat

/-- Function strings.TrimFunc. -/
def strings.TrimFunc (s : GoString) (f : Nat → Bool) : GoString :=
  strings.TrimRightFunc (strings.TrimLeftFunc s f) f

/-- Function strings.TrimSpace: s without leading and trailing white space, as
defined by Unicode. -/
def strings.TrimSpace (s : GoString) : GoString := strings.TrimFunc s unicode.IsSpace

/-- The offset of the first occurrence of sep in s, if there is one. -/
def strings.indexFrom (sep : GoString) : GoString → Option Nat
  | [] => if sep = [] then some 0 else none
  | b :: bs =>
    if sep.isPrefixOf (b :: bs) then some 0
    else (strings.indexFrom sep bs).map (· + 1)

/-- Function strings.Index: the offset of the first occurrence of sep in s, or
-1 when sep does not occur in s. -/
def strings.Index (s sep : GoString) : Int :=
  match strings.indexFrom sep s with
  | some i => (i : Int)
  | none => -1

/-- Function strings.Replace with n = -1 and a one-byte old string: every
occurrence of the byte `old` in s is replaced by `new`. -/
def strings.ReplaceAll (s : GoString) (old : Nat) (new : GoString) : GoString :=
  match s with
  | [] => []
  | b :: bs =>
    if b = old then new ++ strings.ReplaceAll bs old new
    else b :: strings.ReplaceAll bs old new

/-! ## Errors, environment and files -/

/-- A Go error value.  Errors are compared by identity: io.EOF is a sentinel,
and every other error value is distinct from it whatever its message. -/
inductive GoError where
  | EOF
  | other (msg : String)
  deriving DecidableEq, Repr

/-- The sentinel io.EOF. -/
def io.EOF : GoError := GoError.EOF

/-- Function errors.New. -/
def errors.New (text : String) : GoError := GoError.other text

/-- Method Error() of an error value: its message. -/
def GoError.Error : GoError → String
  | GoError.EOF => "EOF"
  | GoError.other msg => msg

/-- The process environment: the value of each variable that is set. -/
abbrev Env := String → Option GoString

/-- Function os.Getenv: the value of the variable, empty when it is not set. -/
def os.Getenv (env : Env) (key : String) : GoString :=
  match env key with
  | some v => v
  | none => []

/-- An open file as a byte source: the bytes it delivers, and the error that
ends the stream (io.EOF at the end of the file, another error when a read
fails after `data` was delivered). -/
structure File where
  data : GoString
  fail : GoError
  deriving DecidableEq, Repr

/-- The file system as os.Open sees it: per path, the open file or the error. -/
abbrev FileSystem := String → Except GoError File

/-- Function os.Open: (file, nil) or (nil, err). -/
def os.Open (fs : FileSystem) (name : String) : Option File × Option GoError :=
  match fs name with
  | Except.ok f => (some f, none)
  | Except.error e => (none, some e)

/-- A bufio.Reader over a file: the bytes not yet handed out and the error of
the underlying source. -/
structure bufio.Reader where
  buf : GoString
  err : GoError
  deriving DecidableEq, Repr

/-- Function bufio.NewReader. -/
def bufio.NewReader (f : File) : bufio.Reader := ⟨f.data, f.fail⟩

/-- The bytes of s up to and including the first delim, and the bytes after
it; no second component when delim does not occur. -/
def bufio.splitDelim (delim : Nat) : GoString → GoString × Option GoString
  | [] => ([], none)
  | b :: bs =>
    if b = delim then ([b], some bs)
    else ((b :: (bufio.splitDelim delim bs).1), (bufio.splitDelim delim bs).2)

/-- Method ReadString: the data up to and including the first delim with a nil
error, or, when the source ends first, the data read before the error and the
error itself.  The third component is the reader afterwards. -/
def bufio.Reader.ReadString (b : bufio.Reader) (delim : Nat) :
    GoString × Option GoError × bufio.Reader :=
  match bufio.splitDelim delim b.buf with
  | (line, some rest) => (line, none, ⟨rest, b.err⟩)
  | (line, none) => (line, some b.err, ⟨[], b.err⟩)

/-! ## models.AppInfo -/

/-- A Go map from string to string: the value stored under each key.  A nil map
and an empty map both have no entry. -/
abbrev GoMap := GoString → Option GoString

/-- The map without entries (the nil map, and the result of make). -/
def GoMap.empty : GoMap := fun _ => none

/-- Assignment m[key] = value. -/
def GoMap.set (m : GoMap) (key value : GoString) : GoMap :=
  fun k => if k = key then some value else m k

/-- Struct models.AppInfo. -/
structure AppInfo where
  PodName : GoString
  AppName : GoString
  Namespace : GoString
  Release : GoString
  Labels : GoMap

/-- The zero value models.AppInfo{}. -/
def AppInfo.zero : AppInfo := ⟨[], [], [], [], GoMap.empty⟩

/-! ## service -/

/-- The part of the loop body of GetAppInfo that handles one line (the same
text in appInfoBaseline and appInfoWithNamespace). -/
def parseLine (info : AppInfo) (line : GoString) : AppInfo :=
  let equal := strings.Index line (lit "=")
  if equal ≥ 0 then
    let key := strings.TrimSpace (goSlice line 0 equal.toNat)
    if key.length > 0 then
      let value : GoString := []
      let value :=
        if (line.length : Int) > equal then strings.TrimSpace (goSliceFrom line (equal + 1).toNat)
        else value
      let value := strings.ReplaceAll value 0x22 []
      if key = lit "app" then { info with AppName := value }
      else if key = lit "release" then { info with Release := value }
      else { info with Labels := info.Labels.set key value }
    else info
  else info

/-- The for loop of GetAppInfo: read a line, handle it, then stop at io.EOF
(returning the outer err, which is nil) or at any other error (returning it).
No result when the fuel runs out before the loop ends. -/
def readLoop : Nat → AppInfo → bufio.Reader → Option (AppInfo × Option GoError)
  | 0, _, _ => none
  | fuel + 1, info, reader =>
    match reader.ReadString 0x0A with
    | (line, err, reader) =>
      let info := parseLine info line
      if err = some io.EOF then some (info, none)
      else if err ≠ none then some (info, err)
      else readLoop fuel info reader

/-- Method appInfoBaseline.GetAppInfo.  The result is absent only if the loop
does not end within the fuel, which is one more than the length of the file,
or if os.Open returned neither a file nor an error. -/
def appInfoBaseline.GetAppInfo (env : Env) (fs : FileSystem) :
    Option (AppInfo × Option GoError) :=
  let info := AppInfo.zero
  let info := { info with Labels := GoMap.empty }
  let info := { info with PodName := os.Getenv env "MY_POD_NAME" }
  match os.Open fs "/etc/labels" with
  | (file, err) =>
    if err ≠ none then some (info, err)
    else
      match file with
      | none => none
      | some file =>
        let reader := bufio.NewReader file
        readLoop (file.data.length + 1) info reader

/-- Method appInfoBroken.GetAppInfo. -/
def appInfoBroken.GetAppInfo (_env : Env) (_fs : FileSystem) :
    Option (AppInfo × Option GoError) :=
  some (AppInfo.zero, some (errors.New "something went wrong"))

/-- Method appInfoWithNamespace.GetAppInfo. -/
def appInfoWithNamespace.GetAppInfo (env : Env) (fs : FileSystem) :
    Option (AppInfo × Option GoError) :=
  let info := AppInfo.zero
  let info := { info with Labels := GoMap.empty }
  let info := { info with PodName := os.Getenv env "MY_POD_NAME" }
  let info := { info with Namespace := os.Getenv env "MY_POD_NAMESPACE" }
  match os.Open fs "/etc/labels" with
  | (file, err) =>
    if err ≠ none then some (info, err)
    else
      match file with
      | none => none
      | some file =>
        let reader := bufio.NewReader file
        readLoop (file.data.length + 1) info reader

/-- The implementations of the interface AppInfoService. -/
inductive AppInfoService where
  | appInfoBaseline
  | appInfoBroken
  | appInfoWithNamespace
  deriving DecidableEq, Repr

/-- Interface method AppInfoService.GetAppInfo, by dynamic dispatch. -/
def AppInfoService.GetAppInfo (s : AppInfoService) (env : Env) (fs : FileSystem) :
    Option (AppInfo × Option GoError) :=
  match s with
  | AppInfoService.appInfoBaseline => appInfoBaseline.GetAppInfo env fs
  | AppInfoService.appInfoBroken => appInfoBroken.GetAppInfo env fs
  | AppInfoService.appInfoWithNamespace => appInfoWithNamespace.GetAppInfo env fs

/-- Function service.New. -/
def New (version : Int) : Option AppInfoService × Option GoError :=
  if version = 1 then (some AppInfoService.appInfoBaseline, none)
  else if version = 2 then (some AppInfoService.appInfoBroken, none)
  else if version = 3 then (some AppInfoService.appInfoWithNamespace, none)
  else (none, some (errors.New "unknown version request"))

/-! ## transport -/

/-- Constant http.StatusInternalServerError. -/
def http.StatusInternalServerError : Int := 500

/-- Constant http.StatusOK. -/
def http.StatusOK : Int := 200

/-- Struct errorWrapper; its field Error is encoded under the JSON name
"error". -/
structure errorWrapper where
  Error : String
  deriving DecidableEq, Repr

/-- A JSON object whose fields are strings: its field names and their values,
in order. -/
abbrev JSONObject := List (String × String)

/-- What an http.ResponseWriter has received: the status code of the header,
once it is written, and the JSON objects encoded to the body. -/
structure ResponseWriter where
  status : Option Int
  body : List JSONObject
  deriving DecidableEq, Repr

/-- A response writer that has received nothing yet. -/
def ResponseWriter.fresh : ResponseWriter := ⟨none, []⟩

/-- Method WriteHeader: sends the header with the status code; a second call
changes nothing. -/
def ResponseWriter.WriteHeader (w : ResponseWriter) (statusCode : Int) : ResponseWriter :=
  if w.status = none then { w with status := some statusCode } else w

/-- Method Write with the encoding of one JSON object: sends the header with
http.StatusOK first when none was written, then the object. -/
def ResponseWriter.Write (w : ResponseWriter) (o : JSONObject) : ResponseWriter :=
  let w := if w.status = none then w.WriteHeader http.StatusOK else w
  { w with body := w.body ++ [o] }

/-- Call json.NewEncoder(w).Encode(v) for an errorWrapper: one object with the
field "error". -/
def errorWrapper.Encode (v : errorWrapper) (w : ResponseWriter) : ResponseWriter :=
  w.Write [("error", v.Error)]

/-- Function err2code: the switch has no case, every error is a 500. -/
def err2code (_err : GoError) : Int :=
  http.StatusInternalServerError

/-- Function errorEncoder: how an error is written back to the client. -/
def errorEncoder (err : GoError) (w : ResponseWriter) : ResponseWriter :=
  let w := w.WriteHeader (err2code err)
  (errorWrapper.mk err.Error).Encode w

/-! ## Vocabulary of the statements -/

/-- The lines of a file as ReadString hands them out: every line but the last
ends in its newline, and the last one is what follows the final newline
(empty when the file is empty or ends in a newline). -/
def splitLines : GoString → List GoString
  | [] => [[]]
  | b :: bs =>
    if b = 0x0A then [b] :: splitLines bs
    else
      match splitLines bs with
      | [] => [[b]]
      | l :: ls => (b :: l) :: ls

/-- The text of a line before its first '='. -/
def beforeEq (line : GoString) : GoString := line.takeWhile (fun b => b ≠ 0x3D)

/-- The text of a line after its first '='. -/
def afterEq (line : GoString) : GoString := (line.dropWhile (fun b => b ≠ 0x3D)).tail

/-- The line has the key k: it contains '=', and the text before the first
'=', trimmed of white space, is k. -/
def hasKey (line k : GoString) : Prop :=
  0x3D ∈ line ∧ strings.TrimSpace (beforeEq line) = k

/-- The value of a line: the text after its first '=', trimmed of white space,
with every double quote removed. -/
def valueOf (line : GoString) : GoString :=
  (strings.TrimSpace (afterEq line)).filter (fun b => b ≠ 0x22)

/-- The field selected by a key: AppName for "app", Release for "release",
otherwise the entry of Labels under the key. -/
def AppInfo.field (info : AppInfo) (k : GoString) : Option GoString :=
  if k = lit "app" then some info.AppName
  else if k = lit "release" then some info.Release
  else info.Labels k

/-- The position is a line boundary: the text before it is empty or ends in a
newline. -/
def endsLine (a : GoString) : Prop := a = [] ∨ a.getLast? = some 0x0A

/-- The error GetAppInfo returns after the loop over a source that fails with
the given error: nil for io.EOF, the error itself otherwise. -/
def loopErr (e : GoError) : Option GoError := if e = io.EOF then none else some e

/-- The switch at the end of the loop body: store the value under the key. -/
def AppInfo.assign (info : AppInfo) (key value : GoString) : AppInfo :=
  if key = lit "app" then { info with AppName := value }
  else if key = lit "release" then { info with Release := value }
  else { info with Labels := info.Labels.set key value }

/-- The record after the loop has handled every line of the content. -/
def run (info : AppInfo) (content : GoString) : AppInfo :=
  (splitLines content).foldl parseLine info

/-- The record appInfoBaseline.GetAppInfo starts the loop with. -/
def baselineStart (env : Env) : AppInfo :=
  ⟨os.Getenv env "MY_POD_NAME", [], [], [], GoMap.empty⟩

/-- The record appInfoWithNamespace.GetAppInfo starts the loop with. -/
def namespaceStart (env : Env) : AppInfo :=
  ⟨os.Getenv env "MY_POD_NAME", [], os.Getenv env "MY_POD_NAMESPACE", [], GoMap.empty⟩

/-- The record a variant starts the loop with. -/
def startRecord (s : AppInfoService) (env : Env) : AppInfo :=
  match s with
  | AppInfoService.appInfoBaseline => baselineStart env
  | AppInfoService.appInfoBroken => AppInfo.zero
  | AppInfoService.appInfoWithNamespace => namespaceStart env

/-- A file system whose label file has the given bytes and ends in io.EOF. -/
def labelFile (content : GoString) : FileSystem :=
  fun _ => Except.ok ⟨content, io.EOF⟩

/-- The text has no double quote and no newline. -/
def noQuoteNoNewline (v : GoString) : Prop := 0x22 ∉ v ∧ 0x0A ∉ v

/-- The values taken from the file have no double quote and no newline. -/
def valuesClean (info : AppInfo) : Prop :=
  noQuoteNoNewline info.AppName ∧ noQuoteNoNewline info.Release ∧
    ∀ k v, info.Labels k = some v → noQuoteNoNewline v

/-- Whether a line has a key is decidable. -/
instance hasKey.decidable (line k : GoString) : Decidable (hasKey line k) :=
  inferInstanceAs (Decidable (0x3D ∈ line ∧ strings.TrimSpace (beforeEq line) = k))

/-- Whether a position is a line boundary is decidable. -/
instance endsLine.decidable (a : GoString) : Decidable (endsLine a) :=
  inferInstanceAs (Decidable (a = [] ∨ a.getLast? = some 0x0A))

/-- An environment in which the pod's name and namespace are set. -/
def sampleEnv : Env := fun key =>
  if key = "MY_POD_NAME" then some (lit "canary-1")
  else if key = "MY_POD_NAMESPACE" then some (lit "prod")
  else none

/-- A file with the given bytes on disk of which only the first n are read:
the read after them fails with the error e. -/
def failingFile (content : GoString) (n : Nat) (e : GoError) : File :=
  ⟨content.take n, e⟩

/-- A file system in which the label file cannot be opened. -/
def noLabelFile : FileSystem :=
  fun _ => Except.error (errors.New "open /etc/labels: no such file or directory")

/-! ## The reader and the lines -/

theorem splitDelim_some (d : Nat) (s line rest : GoString)
    (h : bufio.splitDelim d s = (line, some rest)) :
    s = line ++ rest ∧ rest.length < s.length ∧ ∃ t, line = t ++ [d] ∧ d ∉ t := by
  induction s generalizing line rest with
  | nil => simp [bufio.splitDelim] at h
  | cons b bs ih =>
    unfold bufio.splitDelim at h
    by_cases hb : b = d
    · simp only [hb, if_true, Prod.mk.injEq, Option.some.injEq] at h
      obtain ⟨h1, h2⟩ := h
      subst h1 h2 hb
      exact ⟨by simp, by simp, [], by simp, by simp⟩
    · simp only [hb, if_false, Prod.mk.injEq] at h
      obtain ⟨h1, h2⟩ := h
      obtain ⟨e1, e2, t, e3, e4⟩ := ih (bufio.splitDelim d bs).1 rest (by rw [← h2])
      subst h1
      refine ⟨by simp [← e1], by simp; omega, b :: t, by simp [e3], ?_⟩
      simp only [List.mem_cons, not_or]
      exact ⟨fun hh => hb hh.symm, e4⟩

theorem splitDelim_none (d : Nat) (s line : GoString)
    (h : bufio.splitDelim d s = (line, none)) : line = s ∧ d ∉ s := by
  induction s generalizing line with
  | nil => simp [bufio.splitDelim] at h; simp [h]
  | cons b bs ih =>
    unfold bufio.splitDelim at h
    by_cases hb : b = d
    · simp [hb] at h
    · simp only [hb, if_false, Prod.mk.injEq] at h
      obtain ⟨h1, h2⟩ := h
      obtain ⟨e1, e2⟩ := ih (bufio.splitDelim d bs).1 (by rw [← h2])
      subst h1
      refine ⟨by rw [e1], ?_⟩
      simp only [List.mem_cons, not_or]
      exact ⟨fun hh => hb hh.symm, e2⟩

theorem splitLines_noNewline (t : GoString) (h : 0x0A ∉ t) : splitLines t = [t] := by
  induction t with
  | nil => rfl
  | cons b bs ih =>
    simp only [List.mem_cons, not_or] at h
    have hb : b ≠ 0x0A := fun hh => h.1 hh.symm
    simp [splitLines, hb, ih h.2]

theorem splitLines_line (t c : GoString) (h : 0x0A ∉ t) :
    splitLines (t ++ 0x0A :: c) = (t ++ [0x0A]) :: splitLines c := by
  induction t with
  | nil => simp [splitLines]
  | cons b bs ih =>
    simp only [List.mem_cons, not_or] at h
    have hb : b ≠ 0x0A := fun hh => h.1 hh.symm
    simp [splitLines, hb, ih h.2]

/-- The loop ends within the fuel GetAppInfo gives it, having handled the lines
of the source in order. -/
theorem readLoop_eq (fuel : Nat) (info : AppInfo) (buf : GoString) (e : GoError)
    (h : buf.length < fuel) :
    readLoop fuel info ⟨buf, e⟩ = some ((splitLines buf).foldl parseLine info, loopErr e) := by
  induction fuel generalizing info buf with
  | zero => omega
  | succ n ih =>
    unfold readLoop bufio.Reader.ReadString
    rcases hs : bufio.splitDelim 0x0A buf with ⟨line, _ | rest⟩
    · obtain ⟨e1, e2⟩ := splitDelim_none _ _ _ hs
      subst e1
      simp only [splitLines_noNewline _ e2, List.foldl_cons, List.foldl_nil, loopErr]
      by_cases he : e = io.EOF
      · simp [he]
      · simp [he]
    · obtain ⟨e1, e2, t, e3, e4⟩ := splitDelim_some _ _ _ _ hs
      subst e3
      have : buf = t ++ 0x0A :: rest := by simp [e1]
      subst this
      simp only [splitLines_line _ _ e4, List.foldl_cons]
      simp only [reduceCtorEq, if_false, ne_eq, not_true_eq_false]
      exact ih _ _ (by omega)

/-! ## One line -/

theorem lit_eq : lit "=" = [0x3D] := by decide

theorem indexFrom_eq (s : GoString) :
    strings.indexFrom [0x3D] s = if 0x3D ∈ s then some (beforeEq s).length else none := by
  induction s with
  | nil => simp [strings.indexFrom]
  | cons b bs ih =>
    unfold strings.indexFrom
    by_cases hb : b = 0x3D
    · subst hb
      simp [beforeEq, List.isPrefixOf]
    · have hb2 : ¬ (0x3D = b) := fun hh => hb hh.symm
      simp only [List.isPrefixOf, beq_iff_eq, hb2, Bool.false_and, Bool.false_eq_true, if_false,
        ih, List.mem_cons, false_or]
      by_cases hm : 0x3D ∈ bs
      · simp [hm, beforeEq, List.takeWhile, hb, hb2]
      · simp [hm, hb2]

theorem Index_eq (s : GoString) :
    strings.Index s (lit "=") = if 0x3D ∈ s then ((beforeEq s).length : Int) else -1 := by
  unfold strings.Index
  rw [lit_eq, indexFrom_eq]
  by_cases hm : 0x3D ∈ s <;> simp [hm]

theorem take_beforeEq (s : GoString) : s.take (beforeEq s).length = beforeEq s := by
  induction s with
  | nil => simp [beforeEq]
  | cons b bs ih =>
    by_cases hb : b = 0x3D
    · simp [beforeEq, List.takeWhile, hb]
    · simpa [beforeEq, List.takeWhile, hb] using ih

theorem drop_beforeEq (s : GoString) : s.drop ((beforeEq s).length + 1) = afterEq s := by
  induction s with
  | nil => simp [beforeEq, afterEq]
  | cons b bs ih =>
    by_cases hb : b = 0x3D
    · simp [beforeEq, afterEq, List.takeWhile, List.dropWhile, hb]
    · simpa [beforeEq, afterEq, List.takeWhile, List.dropWhile, hb] using ih

theorem beforeEq_length_lt (s : GoString) (h : 0x3D ∈ s) : (beforeEq s).length < s.length := by
  induction s with
  | nil => simp at h
  | cons b bs ih =>
    by_cases hb : b = 0x3D
    · simp [beforeEq, List.takeWhile, hb]
    · have : 0x3D ∈ bs := by
        rcases List.mem_cons.1 h with h1 | h1
        · exact absurd h1.symm hb
        · exact h1
      have := ih this
      simpa [beforeEq, List.takeWhile, hb] using this

theorem ReplaceAll_eq (s : GoString) (old : Nat) :
    strings.ReplaceAll s old [] = s.filter (fun b => b ≠ old) := by
  induction s with
  | nil => rfl
  | cons b bs ih =>
    unfold strings.ReplaceAll
    by_cases hb : b = old
    · simp [hb, ih]
    · simp [hb, ih, List.filter]

/-- What the loop body does with a line: a line with '=' and a non-empty
trimmed key stores its value under the key; any other line changes nothing. -/
theorem parseLine_eq (info : AppInfo) (line : GoString) :
    parseLine info line =
      if 0x3D ∈ line ∧ strings.TrimSpace (beforeEq line) ≠ [] then
        info.assign (strings.TrimSpace (beforeEq line)) (valueOf line)
      else info := by
  unfold parseLine
  simp only [Index_eq]
  by_cases hm : 0x3D ∈ line
  · have hlt := beforeEq_length_lt line hm
    have hlt2 : ((beforeEq line).length : Int) < (line.length : Int) := by exact_mod_cast hlt
    have e1 : (((beforeEq line).length : Int) + 1).toNat = (beforeEq line).length + 1 := by omega
    simp only [hm, if_true, true_and, Int.toNat_ofNat, goSlice, goSliceFrom, List.drop_zero,
      take_beforeEq, e1, drop_beforeEq, ReplaceAll_eq, gt_iff_lt, hlt2, ge_iff_le,
      Int.natCast_nonneg]
    by_cases hk : strings.TrimSpace (beforeEq line) = []
    · simp [hk]
    · have : 0 < (strings.TrimSpace (beforeEq line)).length := List.length_pos.2 hk
      simp only [this, if_true, hk, not_false_eq_true, ne_eq]
      rfl
  · simp [hm]

/-! ## Assignments to the record -/

theorem AppInfo.ext_fields (x y : AppInfo) (h1 : x.PodName = y.PodName)
    (h2 : x.AppName = y.AppName) (h3 : x.Namespace = y.Namespace) (h4 : x.Release = y.Release)
    (h5 : ∀ k, x.Labels k = y.Labels k) : x = y := by
  cases x; cases y
  simp only [AppInfo.mk.injEq]
  exact ⟨h1, h2, h3, h4, funext h5⟩

theorem assign_PodName (info : AppInfo) (k v : GoString) :
    (info.assign k v).PodName = info.PodName := by
  unfold AppInfo.assign; split_ifs <;> rfl

theorem assign_Namespace (info : AppInfo) (k v : GoString) :
    (info.assign k v).Namespace = info.Namespace := by
  unfold AppInfo.assign; split_ifs <;> rfl

theorem assign_setNamespace (info : AppInfo) (k v n : GoString) :
    ({ info with Namespace := n } : AppInfo).assign k v =
      { info.assign k v with Namespace := n } := by
  unfold AppInfo.assign; split_ifs <;> rfl

theorem field_assign_same (info : AppInfo) (k v : GoString) :
    (info.assign k v).field k = some v := by
  unfold AppInfo.assign AppInfo.field
  split_ifs <;> simp [GoMap.set]

theorem field_assign_other (info : AppInfo) (k k2 v : GoString) (h : k2 ≠ k) :
    (info.assign k v).field k2 = info.field k2 := by
  unfold AppInfo.assign AppInfo.field
  split_ifs <;> simp_all [GoMap.set]

theorem assign_AppName (info : AppInfo) (k v : GoString) :
    (info.assign k v).AppName = if k = lit "app" then v else info.AppName := by
  unfold AppInfo.assign; split_ifs <;> rfl

theorem assign_Release (info : AppInfo) (k v : GoString) :
    (info.assign k v).Release =
      if k = lit "app" then info.Release else if k = lit "release" then v else info.Release := by
  unfold AppInfo.assign; split_ifs <;> rfl

theorem assign_Labels (info : AppInfo) (k v x : GoString) :
    (info.assign k v).Labels x =
      if k = lit "app" then info.Labels x else if k = lit "release" then info.Labels x
      else if x = k then some v else info.Labels x := by
  unfold AppInfo.assign; split_ifs <;> simp_all [GoMap.set]

theorem assign_assign_same (info : AppInfo) (k v v2 : GoString) :
    (info.assign k v).assign k v2 = info.assign k v2 := by
  apply AppInfo.ext_fields
  · simp only [assign_PodName]
  · simp only [assign_AppName]; split_ifs <;> rfl
  · simp only [assign_Namespace]
  · simp only [assign_Release]; split_ifs <;> rfl
  · intro x; simp only [assign_Labels]; split_ifs <;> rfl

theorem assign_comm (info : AppInfo) (k v k2 v2 : GoString) (h : k ≠ k2) :
    (info.assign k v).assign k2 v2 = (info.assign k2 v2).assign k v := by
  apply AppInfo.ext_fields
  · simp only [assign_PodName]
  · simp only [assign_AppName]
    split_ifs <;> first | rfl | (subst_vars; exact absurd rfl h)
  · simp only [assign_Namespace]
  · simp only [assign_Release]
    split_ifs <;> first | rfl | (subst_vars; exact absurd rfl h)
  · intro x
    simp only [assign_Labels]
    split_ifs <;> first | rfl | (subst_vars; exact absurd rfl h)

theorem labels_assign (info : AppInfo) (k v k2 : GoString)
    (h : k2 = lit "app" ∨ k2 = lit "release") (h0 : info.Labels k2 = none) :
    (info.assign k v).Labels k2 = none := by
  unfold AppInfo.assign
  split_ifs with h1 h2
  · exact h0
  · exact h0
  · simp only [GoMap.set]
    rcases h with h | h <;> subst h <;> split_ifs with h3
    · exact absurd h3.symm h1
    · exact h0
    · exact absurd h3.symm h2
    · exact h0

/-! ## The whole file -/

theorem baseline_open_error (env : Env) (fs : FileSystem) (e : GoError)
    (h : fs "/etc/labels" = Except.error e) :
    appInfoBaseline.GetAppInfo env fs = some (baselineStart env, some e) := by
  simp [appInfoBaseline.GetAppInfo, os.Open, h, baselineStart, AppInfo.zero]

theorem baseline_open_ok (env : Env) (fs : FileSystem) (f : File)
    (h : fs "/etc/labels" = Except.ok f) :
    appInfoBaseline.GetAppInfo env fs = some (run (baselineStart env) f.data, loopErr f.fail) := by
  simp only [appInfoBaseline.GetAppInfo, os.Open, h, bufio.NewReader, ne_eq, not_true_eq_false,
    if_false]
  rw [readLoop_eq _ _ _ _ (Nat.lt_succ_self _)]
  rfl

theorem namespace_open_error (env : Env) (fs : FileSystem) (e : GoError)
    (h : fs "/etc/labels" = Except.error e) :
    appInfoWithNamespace.GetAppInfo env fs = some (namespaceStart env, some e) := by
  simp [appInfoWithNamespace.GetAppInfo, os.Open, h, namespaceStart, AppInfo.zero]

theorem namespace_open_ok (env : Env) (fs : FileSystem) (f : File)
    (h : fs "/etc/labels" = Except.ok f) :
    appInfoWithNamespace.GetAppInfo env fs =
      some (run (namespaceStart env) f.data, loopErr f.fail) := by
  simp only [appInfoWithNamespace.GetAppInfo, os.Open, h, bufio.NewReader, ne_eq,
    not_true_eq_false, if_false]
  rw [readLoop_eq _ _ _ _ (Nat.lt_succ_self _)]
  rfl

theorem parseLine_nil (info : AppInfo) : parseLine info [] = info := by
  rw [parseLine_eq]; simp

theorem run_nil (info : AppInfo) : run info [] = info := by
  simp [run, splitLines, parseLine_nil]

theorem run_line (info : AppInfo) (t c : GoString) (h : 0x0A ∉ t) :
    run info (t ++ 0x0A :: c) = run (parseLine info (t ++ [0x0A])) c := by
  simp [run, splitLines_line _ _ h]

theorem exists_first_newline (a : GoString) (h : 0x0A ∈ a) :
    ∃ t r, a = t ++ 0x0A :: r ∧ 0x0A ∉ t := by
  induction a with
  | nil => simp at h
  | cons b bs ih =>
    by_cases hb : b = 0x0A
    · exact ⟨[], bs, by simp [hb], by simp⟩
    · have : 0x0A ∈ bs := by
        rcases List.mem_cons.1 h with h1 | h1
        · exact absurd h1.symm hb
        · exact h1
      obtain ⟨t, r, e1, e2⟩ := ih this
      refine ⟨b :: t, r, by simp [e1], ?_⟩
      simp only [List.mem_cons, not_or]
      exact ⟨fun hh => hb hh.symm, e2⟩

theorem endsLine_mem (a : GoString) (h : endsLine a) (hne : a ≠ []) : 0x0A ∈ a := by
  rcases h with h | h
  · exact absurd h hne
  · exact List.mem_of_getLast?_eq_some h

theorem endsLine_tail (t r : GoString) (h : endsLine (t ++ 0x0A :: r)) : endsLine r := by
  by_cases hr : r = []
  · exact Or.inl hr
  · right
    rcases h with h | h
    · simp at h
    · obtain ⟨x, xs, rfl⟩ := List.exists_cons_of_ne_nil hr
      rw [show t ++ 0x0A :: x :: xs = (t ++ [0x0A]) ++ x :: xs by simp] at h
      rw [List.getLast?_append] at h
      simpa using h

theorem run_boundary_aux (n : Nat) : ∀ a : GoString, a.length ≤ n → endsLine a →
    ∀ (info : AppInfo) (c : GoString), run info (a ++ c) = run (run info a) c := by
  induction n with
  | zero =>
    intro a ha _ info c
    have : a = [] := List.length_eq_zero.1 (Nat.le_zero.1 ha)
    subst this
    simp [run_nil]
  | succ n ih =>
    intro a ha he info c
    by_cases hne : a = []
    · subst hne; simp [run_nil]
    · obtain ⟨t, r, e1, e2⟩ := exists_first_newline a (endsLine_mem a he hne)
      subst e1
      have hr : r.length ≤ n := by
        simp only [List.length_append, List.length_cons] at ha; omega
      have her : endsLine r := endsLine_tail t r he
      rw [show (t ++ 0x0A :: r) ++ c = t ++ 0x0A :: (r ++ c) by simp]
      rw [run_line _ _ _ e2, run_line _ _ _ e2]
      exact ih r hr her _ c

/-- Reading a text that ends at a line boundary and then more text is reading
the first and then the second. -/
theorem run_boundary (a c : GoString) (info : AppInfo) (h : endsLine a) :
    run info (a ++ c) = run (run info a) c :=
  run_boundary_aux a.length a (Nat.le_refl _) h info c

/-! ## Invariants of the loop -/

theorem parseLine_Namespace (info : AppInfo) (line : GoString) :
    (parseLine info line).Namespace = info.Namespace := by
  rw [parseLine_eq]; split_ifs
  · exact assign_Namespace _ _ _
  · rfl

theorem parseLine_setNamespace (info : AppInfo) (line n : GoString) :
    parseLine { info with Namespace := n } line = { parseLine info line with Namespace := n } := by
  rw [parseLine_eq, parseLine_eq]; split_ifs
  · exact assign_setNamespace _ _ _ _
  · rfl

theorem foldl_Namespace (lines : List GoString) (info : AppInfo) :
    (lines.foldl parseLine info).Namespace = info.Namespace := by
  induction lines generalizing info with
  | nil => rfl
  | cons l ls ih => rw [List.foldl_cons, ih, parseLine_Namespace]

theorem foldl_setNamespace (lines : List GoString) (info : AppInfo) (n : GoString) :
    lines.foldl parseLine { info with Namespace := n } =
      { lines.foldl parseLine info with Namespace := n } := by
  induction lines generalizing info with
  | nil => rfl
  | cons l ls ih => rw [List.foldl_cons, List.foldl_cons, parseLine_setNamespace, ih]

theorem parseLine_Labels (info : AppInfo) (line k : GoString)
    (h : k = lit "app" ∨ k = lit "release") (h0 : info.Labels k = none) :
    (parseLine info line).Labels k = none := by
  rw [parseLine_eq]; split_ifs
  · exact labels_assign _ _ _ _ h h0
  · exact h0

theorem foldl_Labels (lines : List GoString) (info : AppInfo) (k : GoString)
    (h : k = lit "app" ∨ k = lit "release") (h0 : info.Labels k = none) :
    (lines.foldl parseLine info).Labels k = none := by
  induction lines generalizing info with
  | nil => exact h0
  | cons l ls ih => rw [List.foldl_cons]; exact ih _ (parseLine_Labels _ _ _ h h0)

/-- A line that does not have the key k leaves the field selected by k as it
is. -/
theorem parseLine_field_other (info : AppInfo) (line k : GoString) (h : ¬ hasKey line k) :
    (parseLine info line).field k = info.field k := by
  rw [parseLine_eq]; split_ifs with hc
  · apply field_assign_other
    intro hk
    exact h ⟨hc.1, hk.symm⟩
  · rfl

/-- A line that has the non-empty key k stores its value in the field selected
by k. -/
theorem parseLine_field_same (info : AppInfo) (line k : GoString) (h : hasKey line k)
    (hk : k ≠ []) : (parseLine info line).field k = some (valueOf line) := by
  obtain ⟨h1, h2⟩ := h
  rw [parseLine_eq, if_pos ⟨h1, by rw [h2]; exact hk⟩, h2]
  exact field_assign_same _ _ _

theorem foldl_field_other (lines : List GoString) (info : AppInfo) (k : GoString)
    (h : ∀ l ∈ lines, ¬ hasKey l k) :
    (lines.foldl parseLine info).field k = info.field k := by
  induction lines generalizing info with
  | nil => rfl
  | cons l ls ih =>
    rw [List.foldl_cons, ih _ (fun x hx => h x (List.mem_cons_of_mem _ hx)),
      parseLine_field_other _ _ _ (h l (List.mem_cons_self _ _))]

/-- The last line with the key k decides the field selected by k. -/
theorem foldl_field_last (A B : List GoString) (l k : GoString) (info : AppInfo)
    (h : hasKey l k) (hk : k ≠ []) (hB : ∀ x ∈ B, ¬ hasKey x k) :
    ((A ++ l :: B).foldl parseLine info).field k = some (valueOf l) := by
  rw [List.foldl_append, List.foldl_cons, foldl_field_other _ _ _ hB,
    parseLine_field_same _ _ _ h hk]

/-- An assignment to the key k is overwritten when a later line has the key k. -/
theorem foldl_absorb (lines : List GoString) (info : AppInfo) (k v l2 : GoString)
    (hk : k ≠ []) (hm : l2 ∈ lines) (h2 : hasKey l2 k) :
    lines.foldl parseLine (info.assign k v) = lines.foldl parseLine info := by
  induction lines generalizing info with
  | nil => simp at hm
  | cons l ls ih =>
    rw [List.foldl_cons, List.foldl_cons, parseLine_eq, parseLine_eq info]
    by_cases hc : 0x3D ∈ l ∧ strings.TrimSpace (beforeEq l) ≠ []
    · rw [if_pos hc, if_pos hc]
      by_cases hkk : strings.TrimSpace (beforeEq l) = k
      · rw [hkk, assign_assign_same]
      · have hl : l2 ∈ ls := by
          rcases List.mem_cons.1 hm with h1 | h1
          · subst h1; exact absurd h2.2 hkk
          · exact h1
        rw [assign_comm _ _ _ _ _ (fun hh => hkk hh.symm)]
        exact ih _ hl
    · rw [if_neg hc, if_neg hc]
      have hl : l2 ∈ ls := by
        rcases List.mem_cons.1 hm with h1 | h1
        · subst h1
          exact absurd ⟨h2.1, by rw [h2.2]; exact hk⟩ hc
        · exact h1
      exact ih _ hl

/-! ## strings.TrimSpace and a trailing newline -/

theorem first_spec (b : Nat) :
    utf8.first b ≥ 0xF0 ∨
      (2 ≤ utf8.first b % 8 ∧ utf8.first b % 8 ≤ 4 ∧
        0x80 ≤ (utf8.acceptRanges (utf8.first b / 16)).1) := by
  unfold utf8.first
  split_ifs <;> simp [utf8.acceptRanges]

theorem decode_eq_core (s : GoString) :
    utf8.DecodeRuneInString s =
      decodeCore s.length (s.getD 0 0) (s.getD 1 0) (s.getD 2 0) (s.getD 3 0) := rfl

theorem decodeCore_newline (n s0 s1 s2 s3 : Nat) (hn : 1 ≤ n) :
    decodeCore (n + 1) s0 (if n = 1 then 0x0A else s1) (if n = 2 then 0x0A else s2)
      (if n = 3 then 0x0A else s3) = decodeCore n s0 s1 s2 s3 := by
  have hf := first_spec s0
  unfold decodeCore
  generalize utf8.first s0 = x at hf ⊢
  have n1 : ¬ n < 1 := by omega
  have n2 : ¬ n + 1 < 1 := by omega
  simp only [n1, n2, if_false]
  by_cases hx : x ≥ 0xF0
  · simp only [hx, if_true]
  · rcases hf with hf | ⟨ha, hb, hc⟩
    · exact absurd hf hx
    · simp only [hx, if_false]
      generalize utf8.acceptRanges (x / 16) = acc at hc ⊢
      generalize x % 8 = sz at ha hb ⊢
      have hlo : (0x0A < acc.1 ∨ acc.2 < 0x0A) := Or.inl (by omega)
      have hsz : sz = 2 ∨ sz = 3 ∨ sz = 4 := by omega
      by_cases c : n < sz
      · simp only [c, if_true]
        by_cases c' : n + 1 < sz
        · simp only [c', if_true]
        · simp only [c', if_false]
          rcases hsz with rfl | rfl | rfl
          · have : n = 1 := by omega
            subst this
            simp only [if_true, hlo]
          · have : n = 2 := by omega
            subst this
            simp
          · have : n = 3 := by omega
            subst this
            simp
      · have c' : ¬ n + 1 < sz := by omega
        have e1 : n ≠ 1 := by omega
        simp only [c, c', if_false, e1]
        by_cases d1 : s1 < acc.1 ∨ acc.2 < s1
        · simp only [d1, if_true]
        · simp only [d1, if_false]
          by_cases d2 : sz ≤ 2
          · simp only [d2, if_true]
          · have e2 : n ≠ 2 := by omega
            simp only [d2, if_false, e2]
            by_cases d3 : s2 < 0x80 ∨ 0xBF < s2
            · simp only [d3, if_true]
            · simp only [d3, if_false]
              by_cases d4 : sz ≤ 3
              · simp only [d4, if_true]
              · have e3 : n ≠ 3 := by omega
                simp only [d4, if_false, e3]

theorem getD_append_singleton (s : GoString) (v j : Nat) :
    (s ++ [v]).getD j 0 = if j = s.length then v else s.getD j 0 := by
  induction s generalizing j with
  | nil =>
    cases j with
    | zero => simp
    | succ j => simp
  | cons b bs ih =>
    cases j with
    | zero => simp
    | succ j =>
      simp only [List.cons_append, List.getD_cons_succ, ih, List.length_cons, Nat.add_right_cancel_iff]

theorem decode_append_newline (s : GoString) (h : s ≠ []) :
    utf8.DecodeRuneInString (s ++ [0x0A]) = utf8.DecodeRuneInString s := by
  have hn : 1 ≤ s.length := Nat.one_le_iff_ne_zero.2 (fun h0 => h (List.length_eq_zero.1 h0))
  rw [decode_eq_core, decode_eq_core, ← decodeCore_newline s.length _ _ _ _ hn]
  simp only [getD_append_singleton, List.length_append, List.length_singleton]
  have e0 : (0 : Nat) ≠ s.length := by omega
  simp only [e0, if_false, eq_comm]

theorem decode_size_le (s : GoString) (h : s ≠ []) :
    1 ≤ (utf8.DecodeRuneInString s).2 ∧ (utf8.DecodeRuneInString s).2 ≤ s.length := by
  have hn : 1 ≤ s.length := Nat.one_le_iff_ne_zero.2 (fun h0 => h (List.length_eq_zero.1 h0))
  rw [decode_eq_core]
  generalize s.length = n at hn
  generalize s.getD 0 0 = s0
  generalize s.getD 1 0 = s1
  generalize s.getD 2 0 = s2
  generalize s.getD 3 0 = s3
  have hf := first_spec s0
  unfold decodeCore
  generalize utf8.first s0 = x at hf ⊢
  have n1 : ¬ n < 1 := by omega
  simp only [n1, if_false]
  by_cases hx : x ≥ 0xF0
  · simp only [hx, if_true]; omega
  · rcases hf with hf | ⟨ha, hb, hc⟩
    · exact absurd hf hx
    · simp only [hx, if_false]
      split_ifs <;> simp only [] <;> omega

theorem isSpace_newline : unicode.IsSpace 0x0A = true := by decide

theorem decode_newline : utf8.DecodeRuneInString [0x0A] = (0x0A, 1) := by decide

/-- The forward loop over s followed by a newline finds what it finds in s. -/
theorem indexFuncLoop_append_newline (s : GoString) (fuel i : Nat) (hi : i ≤ s.length)
    (hf : s.length - i ≤ fuel) :
    strings.indexFuncLoop (s ++ [0x0A]) unicode.IsSpace false (fuel + 1) i =
      strings.indexFuncLoop s unicode.IsSpace false fuel i := by
  induction fuel generalizing i with
  | zero =>
    have : i = s.length := by omega
    subst this
    simp [strings.indexFuncLoop, goSliceFrom, decode_newline, isSpace_newline]
  | succ n ih =>
    by_cases hlt : i < s.length
    · have hne : s.drop i ≠ [] := by
        intro h0
        have := congrArg List.length h0
        simp at this; omega
      have hb := decode_size_le _ hne
      have hd : utf8.DecodeRuneInString (goSliceFrom (s ++ [0x0A]) i) =
          utf8.DecodeRuneInString (goSliceFrom s i) := by
        unfold goSliceFrom
        rw [List.drop_append_of_le_length hi, decode_append_newline _ hne]
      rw [strings.indexFuncLoop, strings.indexFuncLoop.eq_def s]
      have hlt2 : i < (s ++ [0x0A]).length := by simp; omega
      simp only [hlt, hlt2, if_true, hd]
      rcases hdec : utf8.DecodeRuneInString (goSliceFrom s i) with ⟨r, size⟩
      simp only [goSliceFrom, List.length_drop] at hb
      rw [show utf8.DecodeRuneInString (List.drop i s) = (r, size) from hdec] at hb
      simp only
      split_ifs
      · rfl
      · exact ih (i + size) (by simp at hb; omega) (by simp at hb; omega)
    · have : i = s.length := by omega
      subst this
      rw [strings.indexFuncLoop, strings.indexFuncLoop.eq_def s]
      simp [strings.indexFuncLoop, goSliceFrom, decode_newline, isSpace_newline]

theorem indexFuncLoop_range (s : GoString) (f : Nat → Bool) (truth : Bool) (fuel i : Nat) :
    strings.indexFuncLoop s f truth fuel i = -1 ∨
      ((i : Int) ≤ strings.indexFuncLoop s f truth fuel i ∧
        strings.indexFuncLoop s f truth fuel i < (s.length : Int)) := by
  induction fuel generalizing i with
  | zero => left; rfl
  | succ n ih =>
    rw [strings.indexFuncLoop]
    by_cases hlt : i < s.length
    · simp only [hlt, if_true]
      rcases utf8.DecodeRuneInString (goSliceFrom s i) with ⟨r, size⟩
      simp only
      split_ifs
      · right; exact ⟨le_refl _, by exact_mod_cast hlt⟩
      · rcases ih (i + size) with h | ⟨h1, h2⟩
        · left; exact h
        · right; exact ⟨by push_cast at h1; omega, h2⟩
    · simp only [hlt, if_false]; left; trivial

theorem TrimLeftFunc_append_newline (v : GoString) :
    (strings.TrimLeftFunc (v ++ [0x0A]) unicode.IsSpace = [] ∧
        strings.TrimLeftFunc v unicode.IsSpace = []) ∨
      strings.TrimLeftFunc (v ++ [0x0A]) unicode.IsSpace =
        strings.TrimLeftFunc v unicode.IsSpace ++ [0x0A] := by
  have he : strings.indexFunc (v ++ [0x0A]) unicode.IsSpace false =
      strings.indexFunc v unicode.IsSpace false := by
    unfold strings.indexFunc
    rw [List.length_append, List.length_singleton]
    exact indexFuncLoop_append_newline v v.length 0 (Nat.zero_le _) (by omega)
  unfold strings.TrimLeftFunc
  simp only [he]
  rcases indexFuncLoop_range v unicode.IsSpace false v.length 0 with h | ⟨h1, h2⟩
  · left
    have : strings.indexFunc v unicode.IsSpace false = -1 := h
    simp [this]
  · right
    have h1 : 0 ≤ strings.indexFunc v unicode.IsSpace false := by
      unfold strings.indexFunc; exact_mod_cast h1
    have h2 : strings.indexFunc v unicode.IsSpace false < (v.length : Int) := h2
    have hne : strings.indexFunc v unicode.IsSpace false ≠ -1 := by omega
    simp only [hne, if_false, goSliceFrom]
    rw [List.drop_append_of_le_length (by omega)]

theorem decodeLast_append_newline (t : GoString) :
    utf8.DecodeLastRuneInString (t ++ [0x0A]) = (0x0A, 1) := by
  unfold utf8.DecodeLastRuneInString
  have hl : (t ++ [0x0A]).length ≠ 0 := by simp
  have hg : (t ++ [0x0A]).getD ((t ++ [0x0A]).length - 1) 0 = 0x0A := by
    rw [getD_append_singleton]; simp
  simp only [hl, if_false, hg]
  rfl

theorem scanStart_le (s : GoString) (lim : Int) (fuel : Nat) (start : Int) :
    utf8.scanStart s lim fuel start ≤ start := by
  induction fuel generalizing start with
  | zero => exact le_refl _
  | succ n ih =>
    rw [utf8.scanStart]
    split_ifs
    · exact le_refl _
    · have := ih (start - 1); omega
    · exact le_refl _

theorem decodeLast_size (s : GoString) (h : s ≠ []) :
    1 ≤ (utf8.DecodeLastRuneInString s).2 ∧ (utf8.DecodeLastRuneInString s).2 ≤ s.length := by
  have hn : 1 ≤ s.length := Nat.one_le_iff_ne_zero.2 (fun h0 => h (List.length_eq_zero.1 h0))
  have hl : s.length ≠ 0 := by omega
  have hs := scanStart_le s (max ((s.length : Int) - utf8.UTFMax) 0) utf8.UTFMax
    ((s.length : Int) - 2)
  unfold utf8.DecodeLastRuneInString
  simp only [hl, if_false]
  generalize utf8.scanStart s (max ((s.length : Int) - utf8.UTFMax) 0) utf8.UTFMax
    ((s.length : Int) - 2) = st at hs ⊢
  have hst : 0 ≤ (if st < 0 then 0 else st) ∧ (if st < 0 then 0 else st) < (s.length : Int) := by
    split_ifs <;> omega
  generalize (if st < 0 then (0 : Int) else st) = st2 at hst ⊢
  generalize utf8.DecodeRuneInString (goSlice s st2.toNat s.length) = d
  split_ifs with h1 h2
  · exact ⟨le_refl _, hn⟩
  · exact ⟨le_refl _, hn⟩
  · simp only [ne_eq, not_not] at h2
    simp only
    omega

theorem goSlice_append (t r : GoString) (i : Nat) (hi : i ≤ t.length) :
    goSlice (t ++ r) 0 i = goSlice t 0 i := by
  unfold goSlice
  rw [List.take_append_of_le_length hi]

theorem lastIndexFuncLoop_append (t r : GoString) (f : Nat → Bool) (truth : Bool)
    (fuel i : Nat) (hi : i ≤ t.length) :
    strings.lastIndexFuncLoop (t ++ r) f truth fuel i =
      strings.lastIndexFuncLoop t f truth fuel i := by
  induction fuel generalizing i with
  | zero => rfl
  | succ n ih =>
    rw [strings.lastIndexFuncLoop, strings.lastIndexFuncLoop.eq_def t]
    simp only [goSlice_append t r i hi]
    split_ifs
    · rfl
    · exact ih _ (by omega)
    · rfl

theorem lastIndexFuncLoop_range (s : GoString) (f : Nat → Bool) (truth : Bool)
    (fuel i : Nat) (hi : i ≤ s.length) :
    strings.lastIndexFuncLoop s f truth fuel i = -1 ∨
      (0 ≤ strings.lastIndexFuncLoop s f truth fuel i ∧
        strings.lastIndexFuncLoop s f truth fuel i < (i : Int)) := by
  induction fuel generalizing i with
  | zero => left; rfl
  | succ n ih =>
    rw [strings.lastIndexFuncLoop]
    by_cases hpos : i > 0
    · have hlen : (goSlice s 0 i).length = i := by
        simp only [goSlice, List.drop_zero, List.length_take]; omega
      have hne : goSlice s 0 i ≠ [] := by
        intro h0
        rw [h0] at hlen
        simp only [List.length_nil] at hlen
        omega
      have hb := decodeLast_size _ hne
      rw [hlen] at hb
      simp only [hpos, if_true]
      generalize utf8.DecodeLastRuneInString (goSlice s 0 i) = d at hb ⊢
      split_ifs
      · right; constructor
        · exact Int.natCast_nonneg _
        · have : i - d.2 < i := by omega
          exact_mod_cast this
      · rcases ih (i - d.2) (by omega) with h | ⟨h1, h2⟩
        · left; exact h
        · right
          refine ⟨h1, lt_of_lt_of_le h2 ?_⟩
          have : i - d.2 ≤ i := by omega
          exact_mod_cast this
    · simp only [hpos, if_false]; left; trivial

theorem lastIndexFunc_append_newline (t : GoString) :
    strings.lastIndexFunc (t ++ [0x0A]) unicode.IsSpace false =
      strings.lastIndexFunc t unicode.IsSpace false := by
  unfold strings.lastIndexFunc
  rw [List.length_append, List.length_singleton, strings.lastIndexFuncLoop]
  have e : goSlice (t ++ [0x0A]) 0 (t.length + 1) = t ++ [0x0A] := by
    unfold goSlice
    rw [List.drop_zero, List.take_of_length_le (by simp)]
  simp only [e, decodeLast_append_newline, isSpace_newline, Nat.add_sub_cancel,
    gt_iff_lt, Nat.zero_lt_succ, if_true, Bool.true_eq_false, if_false]
  exact lastIndexFuncLoop_append t [0x0A] _ _ _ _ (le_refl _)

theorem TrimRightFunc_append_newline (t : GoString) :
    strings.TrimRightFunc (t ++ [0x0A]) unicode.IsSpace =
      strings.TrimRightFunc t unicode.IsSpace := by
  unfold strings.TrimRightFunc
  simp only [lastIndexFunc_append_newline]
  rcases lastIndexFuncLoop_range t unicode.IsSpace false t.length t.length (le_refl _) with
    h | ⟨h1, h2⟩
  · have hj : strings.lastIndexFunc t unicode.IsSpace false = -1 := h
    simp [hj, goSlice]
  · have h1 : 0 ≤ strings.lastIndexFunc t unicode.IsSpace false := h1
    have h2 : strings.lastIndexFunc t unicode.IsSpace false < (t.length : Int) := h2
    generalize strings.lastIndexFunc t unicode.IsSpace false = j at h1 h2 ⊢
    obtain ⟨k, rfl⟩ := Int.eq_ofNat_of_zero_le h1
    have hk : k < t.length := by exact_mod_cast h2
    have hne : t.drop k ≠ [] := by
      intro h0
      have := congrArg List.length h0
      simp at this; omega
    have hb := decode_size_le _ hne
    simp only [List.length_drop] at hb
    have hg : (t ++ [0x0A]).getD k 0 = t.getD k 0 := by
      rw [getD_append_singleton]
      have : k ≠ t.length := by omega
      simp only [this, if_false]
    have hd : utf8.DecodeRuneInString (goSliceFrom (t ++ [0x0A]) k) =
        utf8.DecodeRuneInString (goSliceFrom t k) := by
      unfold goSliceFrom
      rw [List.drop_append_of_le_length (by omega), decode_append_newline _ hne]
    simp only [Int.toNat_ofNat, hg, hd]
    apply goSlice_append
    unfold goSliceFrom
    split_ifs <;> omega

/-- Trimming a text followed by a newline is trimming the text. -/
theorem TrimSpace_append_newline (v : GoString) :
    strings.TrimSpace (v ++ [0x0A]) = strings.TrimSpace v := by
  unfold strings.TrimSpace strings.TrimFunc
  rcases TrimLeftFunc_append_newline v with ⟨h1, h2⟩ | h
  · rw [h1, h2]
  · rw [h, TrimRightFunc_append_newline]

/-! ## The fuel of the library loops -/

/-- The forward loop gives the same result for every fuel that covers the rest
of the string. -/
theorem indexFuncLoop_fuel (s : GoString) (f : Nat → Bool) (truth : Bool) (fuel1 fuel2 i : Nat)
    (h1 : s.length - i ≤ fuel1) (h2 : s.length - i ≤ fuel2) :
    strings.indexFuncLoop s f truth fuel1 i = strings.indexFuncLoop s f truth fuel2 i := by
  induction fuel1 generalizing fuel2 i with
  | zero =>
    cases fuel2 with
    | zero => rfl
    | succ m =>
      have : ¬ i < s.length := by omega
      simp [strings.indexFuncLoop, this]
  | succ n ih =>
    cases fuel2 with
    | zero =>
      have : ¬ i < s.length := by omega
      simp [strings.indexFuncLoop, this]
    | succ m =>
      rw [strings.indexFuncLoop, strings.indexFuncLoop]
      by_cases hlt : i < s.length
      · have hne : goSliceFrom s i ≠ [] := by
          intro h0
          have := congrArg List.length h0
          simp [goSliceFrom] at this; omega
        have hb := decode_size_le _ hne
        simp only [hlt, if_true]
        generalize utf8.DecodeRuneInString (goSliceFrom s i) = d at hb ⊢
        split_ifs
        · rfl
        · exact ih m (i + d.2) (by omega) (by omega)
      · simp only [hlt, if_false]

/-- The backward loop gives the same result for every fuel that covers the
string up to the offset. -/
theorem lastIndexFuncLoop_fuel (s : GoString) (f : Nat → Bool) (truth : Bool)
    (fuel1 fuel2 i : Nat) (hi : i ≤ s.length) (h1 : i ≤ fuel1) (h2 : i ≤ fuel2) :
    strings.lastIndexFuncLoop s f truth fuel1 i = strings.lastIndexFuncLoop s f truth fuel2 i := by
  induction fuel1 generalizing fuel2 i with
  | zero =>
    cases fuel2 with
    | zero => rfl
    | succ m =>
      have : ¬ i > 0 := by omega
      simp [strings.lastIndexFuncLoop, this]
  | succ n ih =>
    cases fuel2 with
    | zero =>
      have : ¬ i > 0 := by omega
      simp [strings.lastIndexFuncLoop, this]
    | succ m =>
      rw [strings.lastIndexFuncLoop, strings.lastIndexFuncLoop]
      by_cases hpos : i > 0
      · have hlen : (goSlice s 0 i).length = i := by
          simp only [goSlice, List.drop_zero, List.length_take]; omega
        have hne : goSlice s 0 i ≠ [] := by
          intro h0
          rw [h0] at hlen
          simp only [List.length_nil] at hlen
          omega
        have hb := decodeLast_size _ hne
        rw [hlen] at hb
        simp only [hpos, if_true]
        generalize utf8.DecodeLastRuneInString (goSlice s 0 i) = d at hb ⊢
        split_ifs
        · rfl
        · exact ih m (i - d.2) (by omega) (by omega) (by omega)
      · simp only [hpos, if_false]

/-- The backward scan for a rune start ends within utf8.UTFMax steps: more fuel
gives the same result. -/
theorem scanStart_fuel (s : GoString) (lim : Int) (fuel1 fuel2 : Nat) (start : Int)
    (h1 : start - lim < fuel1) (h2 : start - lim < fuel2) :
    utf8.scanStart s lim fuel1 start = utf8.scanStart s lim fuel2 start := by
  induction fuel1 generalizing fuel2 start with
  | zero =>
    cases fuel2 with
    | zero => rfl
    | succ m =>
      have : ¬ start ≥ lim := by simp at h1; omega
      simp [utf8.scanStart, this]
  | succ n ih =>
    cases fuel2 with
    | zero =>
      have : ¬ start ≥ lim := by simp at h2; omega
      simp [utf8.scanStart, this]
    | succ m =>
      rw [utf8.scanStart, utf8.scanStart]
      split_ifs
      · rfl
      · exact ih m (start - 1) (by push_cast at h1; omega) (by push_cast at h2; omega)
      · rfl

/-! ## The two reading variants together -/

theorem variant_open_ok (s : AppInfoService) (env : Env) (fs : FileSystem) (f : File)
    (hs : s = AppInfoService.appInfoBaseline ∨ s = AppInfoService.appInfoWithNamespace)
    (h : fs "/etc/labels" = Except.ok f) :
    s.GetAppInfo env fs = some (run (startRecord s env) f.data, loopErr f.fail) := by
  rcases hs with hs | hs <;> subst hs
  · exact baseline_open_ok env fs f h
  · exact namespace_open_ok env fs f h

theorem variant_open_error (s : AppInfoService) (env : Env) (fs : FileSystem) (e : GoError)
    (hs : s = AppInfoService.appInfoBaseline ∨ s = AppInfoService.appInfoWithNamespace)
    (h : fs "/etc/labels" = Except.error e) :
    s.GetAppInfo env fs = some (startRecord s env, some e) := by
  rcases hs with hs | hs <;> subst hs
  · exact baseline_open_error env fs e h
  · exact namespace_open_error env fs e h

theorem mem_append_newline (t : GoString) : 0x3D ∈ t ++ [0x0A] ↔ 0x3D ∈ t := by
  simp

theorem beforeEq_append (t r : GoString) (h : 0x3D ∈ t) : beforeEq (t ++ r) = beforeEq t := by
  induction t with
  | nil => simp at h
  | cons b bs ih =>
    by_cases hb : b = 0x3D
    · simp [beforeEq, List.takeWhile, hb]
    · have : 0x3D ∈ bs := by
        rcases List.mem_cons.1 h with h1 | h1
        · exact absurd h1.symm hb
        · exact h1
      have := ih this
      simpa [beforeEq, List.takeWhile, hb] using this

theorem afterEq_append (t r : GoString) (h : 0x3D ∈ t) : afterEq (t ++ r) = afterEq t ++ r := by
  induction t with
  | nil => simp at h
  | cons b bs ih =>
    by_cases hb : b = 0x3D
    · simp [afterEq, List.dropWhile, hb]
    · have : 0x3D ∈ bs := by
        rcases List.mem_cons.1 h with h1 | h1
        · exact absurd h1.symm hb
        · exact h1
      have := ih this
      simpa [afterEq, List.dropWhile, hb] using this

/-- The value of a line does not depend on the newline that ends it. -/
theorem valueOf_append_newline (t : GoString) (h : 0x3D ∈ t) :
    valueOf (t ++ [0x0A]) = valueOf t := by
  unfold valueOf
  rw [afterEq_append t _ h, TrimSpace_append_newline]

/-! ## The claims -/

/-- C1: for variants 1 and 3 and a label file read to end-of-file, a key k that
is the trimmed, non-empty text before the first '=' of exactly one line selects
a field (AppName, Release or Labels[k]) that equals the text of that line after
its first '=', trimmed of white space and then with every double quote removed
(with or without the newline that ends the line). -/
theorem getAppInfo_field_of_unique_key (s : AppInfoService) (env : Env) (fs : FileSystem)
    (content : GoString) (A B : List GoString) (line k : GoString)
    (hs : s = AppInfoService.appInfoBaseline ∨ s = AppInfoService.appInfoWithNamespace)
    (hfs : fs "/etc/labels" = Except.ok ⟨content, io.EOF⟩)
    (hlines : splitLines content = A ++ line :: B)
    (hkey : hasKey line k) (hk : k ≠ [])
    (_hA : ∀ x ∈ A, ¬ hasKey x k) (hB : ∀ x ∈ B, ¬ hasKey x k) :
    ∃ info, s.GetAppInfo env fs = some (info, none) ∧ info.field k = some (valueOf line) ∧
      ∀ t, line = t ++ [0x0A] → info.field k = some (valueOf t) := by
  have hf : (run (startRecord s env) content).field k = some (valueOf line) := by
    unfold run
    rw [hlines]
    exact foldl_field_last A B line k _ hkey hk hB
  refine ⟨run (startRecord s env) content, ?_, hf, ?_⟩
  · rw [variant_open_ok s env fs _ hs hfs]; rfl
  · intro t ht
    subst ht
    rw [hf, valueOf_append_newline t ((mem_append_newline t).1 hkey.1)]

/-- Witness of C1: in the file `app="billing"`, `k = v=w`, the key k occurs on
one line; Labels[k] is `v=w`. -/
theorem getAppInfo_field_of_unique_key_witness :
    ∃ info, AppInfoService.appInfoBaseline.GetAppInfo sampleEnv
        (labelFile (lit "app=\"billing\"\nk = v=w \n")) = some (info, none) ∧
      info.Labels (lit "k") = some (lit "v=w") := by
  obtain ⟨info, h1, h2⟩ := getAppInfo_field_of_unique_key AppInfoService.appInfoBaseline
    sampleEnv (labelFile (lit "app=\"billing\"\nk = v=w \n"))
    (lit "app=\"billing\"\nk = v=w \n") [lit "app=\"billing\"\n"] [[]] (lit "k = v=w \n")
    (lit "k") (Or.inl rfl) rfl (by decide) (by decide) (by decide) (by decide) (by decide)
  exact ⟨info, h1, h2.1⟩

/-- C2: service.New returns a provider and a nil error exactly for the versions
1 (baseline), 2 (broken) and 3 (fixed); for every other integer it returns no
provider and a non-nil error. -/
theorem New_provider_iff (version : Int) :
    New 1 = (some AppInfoService.appInfoBaseline, none) ∧
    New 2 = (some AppInfoService.appInfoBroken, none) ∧
    New 3 = (some AppInfoService.appInfoWithNamespace, none) ∧
    (((New version).1 ≠ none ∧ (New version).2 = none) ↔
      (version = 1 ∨ version = 2 ∨ version = 3)) ∧
    (((New version).1 = none ∧ (New version).2 ≠ none) ↔
      ¬ (version = 1 ∨ version = 2 ∨ version = 3)) := by
  refine ⟨rfl, rfl, rfl, ?_, ?_⟩
  · unfold New; split_ifs <;> simp_all
  · unfold New; split_ifs <;> simp_all

/-- C3: on every environment and every state of the label file, the fixed
variant returns the error and the record of the baseline variant, except that
Namespace is the value of MY_POD_NAMESPACE. -/
theorem fixed_eq_baseline_except_namespace (env : Env) (fs : FileSystem) :
    ∃ info err,
      AppInfoService.appInfoBaseline.GetAppInfo env fs = some (info, err) ∧
      AppInfoService.appInfoWithNamespace.GetAppInfo env fs =
        some ({ info with Namespace := os.Getenv env "MY_POD_NAMESPACE" }, err) := by
  rcases h : fs "/etc/labels" with e | f
  · exact ⟨_, _, baseline_open_error env fs e h, namespace_open_error env fs e h⟩
  · refine ⟨_, _, baseline_open_ok env fs f h, ?_⟩
    show appInfoWithNamespace.GetAppInfo env fs = _
    rw [namespace_open_ok env fs f h]
    unfold run
    rw [show namespaceStart env =
      { baselineStart env with Namespace := os.Getenv env "MY_POD_NAMESPACE" } from rfl,
      foldl_setNamespace]

/-- C4: on every environment and every state of the label file, the record the
baseline variant returns has an empty Namespace. -/
theorem baseline_namespace_empty (env : Env) (fs : FileSystem) :
    ∃ info err,
      AppInfoService.appInfoBaseline.GetAppInfo env fs = some (info, err) ∧
      info.Namespace = [] := by
  rcases h : fs "/etc/labels" with e | f
  · exact ⟨_, _, baseline_open_error env fs e h, rfl⟩
  · refine ⟨_, _, baseline_open_ok env fs f h, ?_⟩
    unfold run
    rw [foldl_Namespace]
    rfl

/-- C5: on every environment and every state of the label file, the broken
variant returns an error with the message "something went wrong" and a record
whose PodName, AppName, Namespace and Release are empty and whose Labels has no
entry. -/
theorem broken_always_fails (env : Env) (fs : FileSystem) :
    ∃ info e,
      AppInfoService.appInfoBroken.GetAppInfo env fs = some (info, some e) ∧
      e.Error = "something went wrong" ∧
      info.PodName = [] ∧ info.AppName = [] ∧ info.Namespace = [] ∧ info.Release = [] ∧
      ∀ k, info.Labels k = none :=
  ⟨AppInfo.zero, errors.New "something went wrong", rfl, rfl, rfl, rfl, rfl, rfl, fun _ => rfl⟩

/-- C6: for every variant, environment and state of the label file, the Labels
of the returned record has neither the key "app" nor the key "release". -/
theorem labels_never_app_or_release (s : AppInfoService) (env : Env) (fs : FileSystem) :
    ∃ info err,
      s.GetAppInfo env fs = some (info, err) ∧
      info.Labels (lit "app") = none ∧ info.Labels (lit "release") = none := by
  cases s with
  | appInfoBroken => exact ⟨_, _, rfl, rfl, rfl⟩
  | appInfoBaseline =>
    rcases h : fs "/etc/labels" with e | f
    · exact ⟨_, _, baseline_open_error env fs e h, rfl, rfl⟩
    · exact ⟨_, _, baseline_open_ok env fs f h,
        foldl_Labels _ _ _ (Or.inl rfl) rfl, foldl_Labels _ _ _ (Or.inr rfl) rfl⟩
  | appInfoWithNamespace =>
    rcases h : fs "/etc/labels" with e | f
    · exact ⟨_, _, namespace_open_error env fs e h, rfl, rfl⟩
    · exact ⟨_, _, namespace_open_ok env fs f h,
        foldl_Labels _ _ _ (Or.inl rfl) rfl, foldl_Labels _ _ _ (Or.inr rfl) rfl⟩

/-- C7: for variants 1 and 3 and a label file read to end-of-file, inserting at
a line boundary a complete line that has no '=', or whose text before its first
'=' is empty or only white space, leaves the returned record and error as they
were. -/
theorem insert_ignored_line (s : AppInfoService) (env : Env) (fs fs2 : FileSystem)
    (a t b : GoString)
    (hs : s = AppInfoService.appInfoBaseline ∨ s = AppInfoService.appInfoWithNamespace)
    (hfs : fs "/etc/labels" = Except.ok ⟨a ++ b, io.EOF⟩)
    (hfs2 : fs2 "/etc/labels" = Except.ok ⟨a ++ (t ++ [0x0A]) ++ b, io.EOF⟩)
    (ha : endsLine a) (ht : 0x0A ∉ t)
    (hline : 0x3D ∉ t ∨ strings.TrimSpace (beforeEq t) = []) :
    ∃ info, s.GetAppInfo env fs = some (info, none) ∧
      s.GetAppInfo env fs2 = some (info, none) := by
  refine ⟨run (startRecord s env) (a ++ b), ?_, ?_⟩
  · rw [variant_open_ok s env fs _ hs hfs]; rfl
  · rw [variant_open_ok s env fs2 _ hs hfs2]
    have hp : ∀ info : AppInfo, parseLine info (t ++ [0x0A]) = info := by
      intro info
      rw [parseLine_eq, if_neg]
      rintro ⟨h1, h2⟩
      have h1 : 0x3D ∈ t := (mem_append_newline t).1 h1
      rcases hline with h | h
      · exact h h1
      · rw [beforeEq_append t _ h1] at h2
        exact h2 h
    have hr : run (startRecord s env) (a ++ (t ++ [0x0A]) ++ b) =
        run (startRecord s env) (a ++ b) := by
      rw [show a ++ (t ++ [0x0A]) ++ b = a ++ (t ++ 0x0A :: b) by simp,
        run_boundary _ _ _ ha, run_line _ _ _ ht, hp, ← run_boundary _ _ _ ha]
    show some (run _ (a ++ (t ++ [0x0A]) ++ b), loopErr io.EOF) = _
    rw [hr]; rfl

/-- Witness of C7: the line `   = v`, whose key is only white space, inserted
between `app=x` and `k=v`. -/
theorem insert_ignored_line_witness :
    ∃ info, AppInfoService.appInfoWithNamespace.GetAppInfo sampleEnv
        (labelFile (lit "app=x\nk=v")) = some (info, none) ∧
      AppInfoService.appInfoWithNamespace.GetAppInfo sampleEnv
        (labelFile (lit "app=x\n   = v\nk=v")) = some (info, none) :=
  insert_ignored_line AppInfoService.appInfoWithNamespace sampleEnv
    (labelFile (lit "app=x\nk=v")) (labelFile (lit "app=x\n   = v\nk=v"))
    (lit "app=x\n") (lit "   = v") (lit "k=v") (Or.inr rfl) rfl rfl (by decide)
    (by decide) (Or.inr (by decide))

/-- C8: for variants 1 and 3 and a label file read to end-of-file in which a
complete line and a later line have the same trimmed non-empty key k, deleting
the earlier line leaves the returned record as it was; the last line with the
key k decides the field selected by k (Labels[k], AppName for "app", Release
for "release"), also when its value is empty. -/
theorem delete_earlier_duplicate (s : AppInfoService) (env : Env) (fs fs2 : FileSystem)
    (a t b l2 k : GoString)
    (hs : s = AppInfoService.appInfoBaseline ∨ s = AppInfoService.appInfoWithNamespace)
    (hfs : fs "/etc/labels" = Except.ok ⟨a ++ (t ++ [0x0A]) ++ b, io.EOF⟩)
    (hfs2 : fs2 "/etc/labels" = Except.ok ⟨a ++ b, io.EOF⟩)
    (ha : endsLine a) (ht : 0x0A ∉ t)
    (h1 : hasKey (t ++ [0x0A]) k) (hk : k ≠ [])
    (hm : l2 ∈ splitLines b) (h2 : hasKey l2 k) :
    ∃ info, s.GetAppInfo env fs = some (info, none) ∧
      s.GetAppInfo env fs2 = some (info, none) ∧
      ∀ (B1 : List GoString) (l : GoString) (B2 : List GoString),
        splitLines b = B1 ++ l :: B2 → hasKey l k → (∀ x ∈ B2, ¬ hasKey x k) →
        info.field k = some (valueOf l) := by
  have hr : run (startRecord s env) (a ++ (t ++ [0x0A]) ++ b) =
      run (startRecord s env) (a ++ b) := by
    rw [show a ++ (t ++ [0x0A]) ++ b = a ++ (t ++ 0x0A :: b) by simp,
      run_boundary _ _ _ ha, run_line _ _ _ ht, run_boundary _ _ _ ha, parseLine_eq,
      if_pos ⟨h1.1, by rw [h1.2]; exact hk⟩, h1.2]
    exact foldl_absorb _ _ _ _ l2 hk hm h2
  refine ⟨run (startRecord s env) (a ++ b), ?_, ?_, ?_⟩
  · rw [variant_open_ok s env fs _ hs hfs]
    show some (run _ (a ++ (t ++ [0x0A]) ++ b), loopErr io.EOF) = _
    rw [hr]; rfl
  · rw [variant_open_ok s env fs2 _ hs hfs2]; rfl
  · intro B1 l B2 hb hl hB2
    rw [run_boundary _ _ _ ha]
    show ((splitLines b).foldl parseLine _).field k = _
    rw [hb]
    exact foldl_field_last B1 B2 l k _ hl hk hB2

/-- Witness of C8: `app=x` followed by `app=` gives what `app=` alone gives, an
empty AppName. -/
theorem delete_earlier_duplicate_witness :
    ∃ info, AppInfoService.appInfoBaseline.GetAppInfo sampleEnv
        (labelFile (lit "app=x\napp=\n")) = some (info, none) ∧
      AppInfoService.appInfoBaseline.GetAppInfo sampleEnv
        (labelFile (lit "app=\n")) = some (info, none) ∧
      info.AppName = [] := by
  obtain ⟨info, e1, e2, e3⟩ := delete_earlier_duplicate AppInfoService.appInfoBaseline sampleEnv
    (labelFile (lit "app=x\napp=\n")) (labelFile (lit "app=\n"))
    [] (lit "app=x") (lit "app=\n") (lit "app=\n") (lit "app") (Or.inl rfl) rfl rfl
    (by decide) (by decide) (by decide) (by decide) (by decide) (by decide)
  have e4 := e3 [] (lit "app=\n") [[]] (by decide) (by decide) (by decide)
  exact ⟨info, e1, e2, Option.some.inj e4⟩

/-- C9: for variants 1 and 3, when the label file cannot be opened, GetAppInfo
returns the open error and a record whose PodName is MY_POD_NAME (and, for
variant 3, whose Namespace is MY_POD_NAMESPACE), whose AppName and Release are
empty and whose Labels has no entry. -/
theorem open_error_partial_record (env : Env) (fs : FileSystem) (e : GoError)
    (h : fs "/etc/labels" = Except.error e) :
    (∃ info, AppInfoService.appInfoBaseline.GetAppInfo env fs = some (info, some e) ∧
      info.PodName = os.Getenv env "MY_POD_NAME" ∧
      info.AppName = [] ∧ info.Release = [] ∧ ∀ k, info.Labels k = none) ∧
    (∃ info, AppInfoService.appInfoWithNamespace.GetAppInfo env fs = some (info, some e) ∧
      info.PodName = os.Getenv env "MY_POD_NAME" ∧
      info.Namespace = os.Getenv env "MY_POD_NAMESPACE" ∧
      info.AppName = [] ∧ info.Release = [] ∧ ∀ k, info.Labels k = none) :=
  ⟨⟨_, baseline_open_error env fs e h, rfl, rfl, rfl, fun _ => rfl⟩,
   ⟨_, namespace_open_error env fs e h, rfl, rfl, rfl, rfl, fun _ => rfl⟩⟩

/-- Witness of C9: with no label file, the fixed variant still reports the pod
name canary-1 and the namespace prod next to the open error. -/
theorem open_error_partial_record_witness :
    ∃ info, AppInfoService.appInfoWithNamespace.GetAppInfo sampleEnv noLabelFile =
        some (info, some (errors.New "open /etc/labels: no such file or directory")) ∧
      info.PodName = lit "canary-1" ∧ info.Namespace = lit "prod" := by
  obtain ⟨info, e1, e2, e3, _⟩ :=
    (open_error_partial_record sampleEnv noLabelFile
      (errors.New "open /etc/labels: no such file or directory") rfl).2
  exact ⟨info, e1, e2.trans (by decide), e3.trans (by decide)⟩

/-- C10: for variants 1 and 3, GetAppInfo returns a non-nil error if and only if
the label file cannot be opened or a read fails with an error other than
io.EOF; whatever the content of a file read to end-of-file, the error is nil. -/
theorem error_iff_open_or_read_failure (s : AppInfoService) (env : Env) (fs : FileSystem)
    (hs : s = AppInfoService.appInfoBaseline ∨ s = AppInfoService.appInfoWithNamespace) :
    ∃ info err, s.GetAppInfo env fs = some (info, err) ∧
      (err ≠ none ↔
        ((∃ e, fs "/etc/labels" = Except.error e) ∨
          ∃ f, fs "/etc/labels" = Except.ok f ∧ f.fail ≠ io.EOF)) ∧
      ∀ content, fs "/etc/labels" = Except.ok ⟨content, io.EOF⟩ → err = none := by
  rcases h : fs "/etc/labels" with e | f
  · refine ⟨_, _, variant_open_error s env fs e hs h, ?_, ?_⟩
    · simp
    · intro content hc; cases hc
  · refine ⟨_, _, variant_open_ok s env fs f hs h, ?_, ?_⟩
    · unfold loopErr
      by_cases he : f.fail = io.EOF
      · simp [he]
      · simp [he]
    · intro content hc
      cases hc
      rfl

/-- Witness of C10: a file of bytes that are no text at all is read without an
error. -/
theorem error_iff_open_or_read_failure_witness :
    ∃ info, AppInfoService.appInfoBaseline.GetAppInfo sampleEnv
        (labelFile [0xFF, 0x3D, 0x00, 0xC2]) = some (info, none) := by
  obtain ⟨info, err, e1, _, e3⟩ := error_iff_open_or_read_failure
    AppInfoService.appInfoBaseline sampleEnv (labelFile [0xFF, 0x3D, 0x00, 0xC2]) (Or.inl rfl)
  have := e3 [0xFF, 0x3D, 0x00, 0xC2] rfl
  subst this
  exact ⟨info, e1⟩

/-! ## A trailing newline, and the shape of the lines -/

/-- Every text is a text that ends at a line boundary followed by a text
without a newline. -/
theorem exists_boundary_split (c : GoString) :
    ∃ a t, c = a ++ t ∧ endsLine a ∧ 0x0A ∉ t := by
  induction c with
  | nil => exact ⟨[], [], rfl, Or.inl rfl, by simp⟩
  | cons b bs ih =>
    obtain ⟨a, t, e1, e2, e3⟩ := ih
    by_cases hb : b = 0x0A
    · refine ⟨b :: a, t, by simp [e1], ?_, e3⟩
      right
      rcases e2 with e2 | e2
      · subst e2; simp [hb]
      · obtain ⟨x, xs, rfl⟩ := List.exists_cons_of_ne_nil
          (fun h0 : a = [] => by rw [h0] at e2; simp at e2)
        rw [List.getLast?_cons_cons]; exact e2
    · by_cases ha : a = []
      · subst ha
        refine ⟨[], b :: t, by simp [e1], Or.inl rfl, ?_⟩
        simp only [List.mem_cons, not_or]
        exact ⟨fun hh => hb hh.symm, e3⟩
      · refine ⟨b :: a, t, by simp [e1], ?_, e3⟩
        right
        rcases e2 with e2 | e2
        · exact absurd e2 ha
        · obtain ⟨x, xs, rfl⟩ := List.exists_cons_of_ne_nil ha
          rw [List.getLast?_cons_cons]; exact e2

/-- The loop body does the same with a line and with the line followed by a
newline. -/
theorem parseLine_append_newline (info : AppInfo) (t : GoString) :
    parseLine info (t ++ [0x0A]) = parseLine info t := by
  rw [parseLine_eq, parseLine_eq info t]
  by_cases h : 0x3D ∈ t
  · rw [beforeEq_append t _ h, valueOf_append_newline t h]
    simp only [(mem_append_newline t).2 h, h]
  · have h2 : ¬ 0x3D ∈ t ++ [0x0A] := fun hh => h ((mem_append_newline t).1 hh)
    rw [if_neg (fun hh => h2 hh.1), if_neg (fun hh => h hh.1)]

theorem run_noNewline (info : AppInfo) (t : GoString) (h : 0x0A ∉ t) :
    run info t = parseLine info t := by
  simp [run, splitLines_noNewline t h]

/-- Reading a text followed by one more newline gives the record of the text. -/
theorem run_append_newline (info : AppInfo) (c : GoString) :
    run info (c ++ [0x0A]) = run info c := by
  obtain ⟨a, t, e1, e2, e3⟩ := exists_boundary_split c
  subst e1
  rw [List.append_assoc, run_boundary _ _ _ e2, run_boundary _ _ _ e2,
    show t ++ [0x0A] = t ++ 0x0A :: [] from rfl, run_line _ _ _ e3, run_nil,
    run_noNewline _ _ e3, parseLine_append_newline]

/-- A line of a file has no newline but, possibly, at its end. -/
theorem splitLines_shape (c l : GoString) (h : l ∈ splitLines c) :
    ∃ t, 0x0A ∉ t ∧ (l = t ∨ l = t ++ [0x0A]) := by
  induction c generalizing l with
  | nil =>
    simp only [splitLines, List.mem_singleton] at h
    exact ⟨[], by simp, Or.inl h⟩
  | cons b bs ih =>
    unfold splitLines at h
    by_cases hb : b = 0x0A
    · simp only [hb, if_true, List.mem_cons] at h
      rcases h with h | h
      · exact ⟨[], by simp, Or.inr (by simp [h])⟩
      · exact ih l h
    · simp only [hb, if_false] at h
      rcases hs : splitLines bs with _ | ⟨x, xs⟩
      · simp only [hs, List.mem_singleton] at h
        refine ⟨[b], ?_, Or.inl h⟩
        simp only [List.mem_singleton]
        exact fun hh => hb hh.symm
      · simp only [hs, List.mem_cons] at h
        rcases h with h | h
        · obtain ⟨t, e1, e2⟩ := ih x (by rw [hs]; exact List.mem_cons_self _ _)
          refine ⟨b :: t, ?_, ?_⟩
          · simp only [List.mem_cons, not_or]
            exact ⟨fun hh => hb hh.symm, e1⟩
          · rcases e2 with e2 | e2
            · left; rw [h, e2]
            · right; rw [h, e2]; rfl
        · exact ih l (by rw [hs]; exact List.mem_cons_of_mem _ h)

theorem parseLine_PodName (info : AppInfo) (line : GoString) :
    (parseLine info line).PodName = info.PodName := by
  rw [parseLine_eq]; split_ifs
  · exact assign_PodName _ _ _
  · rfl

theorem foldl_PodName (lines : List GoString) (info : AppInfo) :
    (lines.foldl parseLine info).PodName = info.PodName := by
  induction lines generalizing info with
  | nil => rfl
  | cons l ls ih => rw [List.foldl_cons, ih, parseLine_PodName]

/-- After a line, Labels has the key k if it had it before or the line stores
under it. -/
theorem parseLine_Labels_iff (info : AppInfo) (l k : GoString) :
    (parseLine info l).Labels k ≠ none ↔
      (info.Labels k ≠ none ∨
        (k ≠ [] ∧ k ≠ lit "app" ∧ k ≠ lit "release" ∧ hasKey l k)) := by
  rw [parseLine_eq]
  by_cases hc : 0x3D ∈ l ∧ strings.TrimSpace (beforeEq l) ≠ []
  · rw [if_pos hc, assign_Labels]
    by_cases h1 : strings.TrimSpace (beforeEq l) = lit "app"
    · rw [if_pos h1]
      constructor
      · exact fun h => Or.inl h
      · rintro (h | ⟨_, h2, _, h4⟩)
        · exact h
        · exact absurd (h4.2.symm.trans h1) h2
    · rw [if_neg h1]
      by_cases h2 : strings.TrimSpace (beforeEq l) = lit "release"
      · rw [if_pos h2]
        constructor
        · exact fun h => Or.inl h
        · rintro (h | ⟨_, _, h3, h4⟩)
          · exact h
          · exact absurd (h4.2.symm.trans h2) h3
      · rw [if_neg h2]
        by_cases hk : k = strings.TrimSpace (beforeEq l)
        · rw [if_pos hk]
          constructor
          · intro _
            right
            subst hk
            exact ⟨hc.2, h1, h2, hc.1, rfl⟩
          · intro _; simp
        · rw [if_neg hk]
          constructor
          · exact fun h => Or.inl h
          · rintro (h | ⟨_, _, _, h4⟩)
            · exact h
            · exact absurd h4.2.symm hk
  · rw [if_neg hc]
    constructor
    · exact fun h => Or.inl h
    · rintro (h | ⟨h1, _, _, h4⟩)
      · exact h
      · exact absurd ⟨h4.1, by rw [h4.2]; exact h1⟩ hc

theorem foldl_Labels_iff (lines : List GoString) (info : AppInfo) (k : GoString) :
    (lines.foldl parseLine info).Labels k ≠ none ↔
      (info.Labels k ≠ none ∨
        (k ≠ [] ∧ k ≠ lit "app" ∧ k ≠ lit "release" ∧ ∃ l ∈ lines, hasKey l k)) := by
  induction lines generalizing info with
  | nil => simp
  | cons x xs ih =>
    rw [List.foldl_cons, ih, parseLine_Labels_iff]
    constructor
    · rintro ((h | ⟨h1, h2, h3, h4⟩) | ⟨h1, h2, h3, l, hl, h4⟩)
      · exact Or.inl h
      · exact Or.inr ⟨h1, h2, h3, x, List.mem_cons_self _ _, h4⟩
      · exact Or.inr ⟨h1, h2, h3, l, List.mem_cons_of_mem _ hl, h4⟩
    · rintro (h | ⟨h1, h2, h3, l, hl, h4⟩)
      · exact Or.inl (Or.inl h)
      · rcases List.mem_cons.1 hl with e | e
        · subst e; exact Or.inl (Or.inr ⟨h1, h2, h3, h4⟩)
        · exact Or.inr ⟨h1, h2, h3, l, e, h4⟩

theorem startRecord_Labels (s : AppInfoService) (env : Env) (k : GoString) :
    (startRecord s env).Labels k = none := by
  cases s <;> rfl

/-! ## The claims, continued -/

/-- C11: for variants 1 and 3 and every content read to end-of-file, GetAppInfo
returns the same record for the content and for the content followed by one
more newline; a final line without its newline is parsed as if it had one. -/
theorem trailing_newline_same_record (s : AppInfoService) (env : Env) (fs fs2 : FileSystem)
    (content : GoString)
    (hs : s = AppInfoService.appInfoBaseline ∨ s = AppInfoService.appInfoWithNamespace)
    (hfs : fs "/etc/labels" = Except.ok ⟨content, io.EOF⟩)
    (hfs2 : fs2 "/etc/labels" = Except.ok ⟨content ++ [0x0A], io.EOF⟩) :
    ∃ info, s.GetAppInfo env fs = some (info, none) ∧
      s.GetAppInfo env fs2 = some (info, none) := by
  refine ⟨run (startRecord s env) content, ?_, ?_⟩
  · rw [variant_open_ok s env fs _ hs hfs]; rfl
  · rw [variant_open_ok s env fs2 _ hs hfs2]
    show some (run _ (content ++ [0x0A]), loopErr io.EOF) = _
    rw [run_append_newline]; rfl

/-- Witness of C11: the file `app=x`, `k = "v"` with and without the newline
after its last line. -/
theorem trailing_newline_same_record_witness :
    ∃ info, AppInfoService.appInfoWithNamespace.GetAppInfo sampleEnv
        (labelFile (lit "app=x\nk = \"v\"")) = some (info, none) ∧
      AppInfoService.appInfoWithNamespace.GetAppInfo sampleEnv
        (labelFile (lit "app=x\nk = \"v\"\n")) = some (info, none) :=
  trailing_newline_same_record AppInfoService.appInfoWithNamespace sampleEnv
    (labelFile (lit "app=x\nk = \"v\"")) (labelFile (lit "app=x\nk = \"v\"\n"))
    (lit "app=x\nk = \"v\"") (Or.inr rfl) rfl rfl

/-- C12: for variants 1 and 3 and a label file read to end-of-file, the keys of
the returned Labels are exactly the trimmed, non-empty keys of the lines that
contain '=', except "app" and "release"; keys are compared byte for byte. -/
theorem labels_keys_exact (s : AppInfoService) (env : Env) (fs : FileSystem)
    (content : GoString)
    (hs : s = AppInfoService.appInfoBaseline ∨ s = AppInfoService.appInfoWithNamespace)
    (hfs : fs "/etc/labels" = Except.ok ⟨content, io.EOF⟩) :
    ∃ info, s.GetAppInfo env fs = some (info, none) ∧
      ∀ k, info.Labels k ≠ none ↔
        (k ≠ [] ∧ k ≠ lit "app" ∧ k ≠ lit "release" ∧ ∃ l ∈ splitLines content, hasKey l k) := by
  refine ⟨run (startRecord s env) content, ?_, ?_⟩
  · rw [variant_open_ok s env fs _ hs hfs]; rfl
  · intro k
    unfold run
    rw [foldl_Labels_iff]
    simp only [startRecord_Labels, ne_eq, not_true_eq_false, false_or]

/-- Witness of C12: in the file `App=x`, `"app"=y` the keys `App` and `"app"`
(with its quotes) are keys of Labels, and AppName stays empty. -/
theorem labels_keys_exact_witness :
    ∃ info, AppInfoService.appInfoBaseline.GetAppInfo sampleEnv
        (labelFile (lit "App=x\n\"app\"=y\n")) = some (info, none) ∧
      info.Labels (lit "App") ≠ none ∧ info.Labels (lit "\"app\"") ≠ none ∧
      info.Labels (lit "app") = none ∧ info.AppName = [] := by
  obtain ⟨info, e1, e2⟩ := labels_keys_exact AppInfoService.appInfoBaseline sampleEnv
    (labelFile (lit "App=x\n\"app\"=y\n")) (lit "App=x\n\"app\"=y\n") (Or.inl rfl) rfl
  have e3 := baseline_open_ok sampleEnv (labelFile (lit "App=x\n\"app\"=y\n")) _ rfl
  have e4 : info = run (baselineStart sampleEnv) (lit "App=x\n\"app\"=y\n") := by
    have := e1.symm.trans e3
    simp only [Option.some.injEq, Prod.mk.injEq] at this
    exact this.1
  refine ⟨info, e1, (e2 _).2 (by decide), (e2 _).2 (by decide), ?_, ?_⟩
  · by_contra h
    exact absurd ((e2 _).1 h).2.1 (by decide)
  · rw [e4]; decide

theorem parseLine_field_unchanged (info : AppInfo) (line k : GoString)
    (h : k = [] ∨ ¬ hasKey line k) : (parseLine info line).field k = info.field k := by
  rcases h with h | h
  · rw [parseLine_eq]; split_ifs with hc
    · apply field_assign_other
      rw [h]
      exact fun hh => hc.2 hh.symm
    · rfl
  · exact parseLine_field_other info line k h

theorem foldl_field_unchanged (lines : List GoString) (info : AppInfo) (k : GoString)
    (h : k = [] ∨ ∀ l ∈ lines, ¬ hasKey l k) :
    (lines.foldl parseLine info).field k = info.field k := by
  induction lines generalizing info with
  | nil => rfl
  | cons l ls ih =>
    rw [List.foldl_cons, ih, parseLine_field_unchanged]
    · rcases h with h | h
      · exact Or.inl h
      · exact Or.inr (h l (List.mem_cons_self _ _))
    · rcases h with h | h
      · exact Or.inl h
      · exact Or.inr (fun x hx => h x (List.mem_cons_of_mem _ hx))

theorem startRecord_field (s : AppInfoService) (env : Env) (k : GoString) :
    (startRecord s env).field k =
      if k = lit "app" ∨ k = lit "release" then some [] else none := by
  cases s <;>
    (unfold AppInfo.field startRecord
     by_cases h1 : k = lit "app"
     · simp [h1, baselineStart, namespaceStart, AppInfo.zero]
     · by_cases h2 : k = lit "release"
       · simp [h1, h2, baselineStart, namespaceStart, AppInfo.zero]
       · simp [h1, h2, baselineStart, namespaceStart, AppInfo.zero, GoMap.empty])

theorem failingFile_append (data rest : GoString) (e : GoError) :
    failingFile (data ++ rest) data.length e = ⟨data, e⟩ := by
  simp [failingFile]

/-- C13: for variants 1 and 3, when a read of the label file fails with an error
other than io.EOF after the bytes `data` were delivered, whatever bytes `rest`
the file has after them, GetAppInfo returns that error and the record
accumulated from the lines read, the lines of `data`: PodName (and Namespace
for variant 3) from the environment; for every key the value of the last line
read that has it; the initial empty field for a key that no line read has.  No
line of `rest` contributes: the result is the same for every `rest`, and it is
the record a file that ends after `data` gives. -/
theorem read_error_returns_accumulated (s : AppInfoService) (env : Env) (fs fs2 : FileSystem)
    (data rest : GoString) (e : GoError)
    (hs : s = AppInfoService.appInfoBaseline ∨ s = AppInfoService.appInfoWithNamespace)
    (hfs : fs "/etc/labels" = Except.ok (failingFile (data ++ rest) data.length e))
    (he : e ≠ io.EOF)
    (hfs2 : fs2 "/etc/labels" = Except.ok ⟨data, io.EOF⟩) :
    ∃ info, s.GetAppInfo env fs = some (info, some e) ∧
      s.GetAppInfo env fs2 = some (info, none) ∧
      info.PodName = os.Getenv env "MY_POD_NAME" ∧
      (s = AppInfoService.appInfoWithNamespace →
        info.Namespace = os.Getenv env "MY_POD_NAMESPACE") ∧
      (s = AppInfoService.appInfoBaseline → info.Namespace = []) ∧
      (∀ (k : GoString) (A : List GoString) (l : GoString) (B : List GoString),
        k ≠ [] → splitLines data = A ++ l :: B → hasKey l k → (∀ x ∈ B, ¬ hasKey x k) →
        info.field k = some (valueOf l)) ∧
      (∀ k : GoString, (k = [] ∨ ∀ l ∈ splitLines data, ¬ hasKey l k) →
        info.field k = if k = lit "app" ∨ k = lit "release" then some [] else none) ∧
      (∀ (rest2 : GoString) (fs3 : FileSystem),
        fs3 "/etc/labels" = Except.ok (failingFile (data ++ rest2) data.length e) →
        s.GetAppInfo env fs3 = some (info, some e)) := by
  have hrun : ∀ (r : GoString) (fs3 : FileSystem),
      fs3 "/etc/labels" = Except.ok (failingFile (data ++ r) data.length e) →
      s.GetAppInfo env fs3 = some (run (startRecord s env) data, some e) := by
    intro r fs3 h3
    rw [variant_open_ok s env fs3 _ hs h3, failingFile_append]
    simp only [loopErr, he, if_false]
  refine ⟨run (startRecord s env) data, hrun rest fs hfs, ?_, ?_, ?_, ?_, ?_, ?_, hrun⟩
  · rw [variant_open_ok s env fs2 _ hs hfs2]; rfl
  · unfold run
    rw [foldl_PodName]
    rcases hs with hs | hs <;> subst hs <;> rfl
  · intro h
    subst h
    unfold run
    rw [foldl_Namespace]
    rfl
  · intro h
    subst h
    unfold run
    rw [foldl_Namespace]
    rfl
  · intro k A l B hk hl hkey hB
    unfold run
    rw [hl]
    exact foldl_field_last A B l k _ hkey hk hB
  · intro k hk
    unfold run
    rw [foldl_field_unchanged _ _ _ hk, startRecord_field]

/-- Witness of C13: the file holds `app=x`, `k=v`, `tier=gold`, and the read
fails after the eight bytes `app=x`, newline, `k=`.  The error comes back with
AppName x from the line read, an empty Labels[k] from the fragment `k=` handed
out with the failing read, and no entry for tier, whose line lies after the
failure. -/
theorem read_error_returns_accumulated_witness :
    ∃ info, AppInfoService.appInfoBaseline.GetAppInfo sampleEnv
        (fun _ => Except.ok (failingFile (lit "app=x\nk=v\ntier=gold\n") 8
          (errors.New "read /etc/labels: input/output error"))) =
        some (info, some (errors.New "read /etc/labels: input/output error")) ∧
      info.PodName = lit "canary-1" ∧ info.AppName = lit "x" ∧ info.Release = [] ∧
      info.Labels (lit "k") = some [] ∧ info.Labels (lit "tier") = none := by
  obtain ⟨info, e1, _, e3, _, _, e6, e7, _⟩ := read_error_returns_accumulated
    AppInfoService.appInfoBaseline sampleEnv
    (fun _ => Except.ok (failingFile (lit "app=x\nk=v\ntier=gold\n") 8
      (errors.New "read /etc/labels: input/output error")))
    (labelFile (lit "app=x\nk=")) (lit "app=x\nk=") (lit "v\ntier=gold\n")
    (errors.New "read /etc/labels: input/output error") (Or.inl rfl) rfl (by decide) rfl
  have h1 := e6 (lit "app") [] (lit "app=x\n") [lit "k="] (by decide) (by decide) (by decide)
    (by decide)
  have h2 := e6 (lit "k") [lit "app=x\n"] (lit "k=") [] (by decide) (by decide) (by decide)
    (by decide)
  have h3 := e7 (lit "release") (Or.inr (by decide))
  have h4 := e7 (lit "tier") (Or.inr (by decide))
  exact ⟨info, e1, e3.trans (by decide), Option.some.inj (h1.trans (by decide)),
    Option.some.inj (h3.trans (by decide)), h2.trans (by decide), h4.trans (by decide)⟩

/-- C14: err2code maps every error to the status 500, and errorEncoder sends
that status with an envelope whose field "error" is the message of the error;
the error of the broken variant gives 500 and "something went wrong". -/
theorem error_envelope_500 (err : GoError) :
    err2code err = 500 ∧
    errorEncoder err ResponseWriter.fresh = ⟨some 500, [[("error", err.Error)]]⟩ ∧
    ∀ (env : Env) (fs : FileSystem), ∃ info e,
      AppInfoService.appInfoBroken.GetAppInfo env fs = some (info, some e) ∧
      errorEncoder e ResponseWriter.fresh = ⟨some 500, [[("error", "something went wrong")]]⟩ :=
  ⟨rfl, rfl, fun _ _ => ⟨AppInfo.zero, errors.New "something went wrong", rfl, rfl⟩⟩

/-- C15: with the label file `app="billing"`, `release="v2"`, `tier=gold` (three
lines, each ended by a newline) version 1 returns a nil error and a record with
AppName billing, Release v2, an empty Namespace, PodName from MY_POD_NAME and
Labels with the one entry tier: gold. -/
theorem scenario_billing_baseline (env : Env) (fs : FileSystem)
    (hfs : fs "/etc/labels" =
      Except.ok ⟨lit "app=\"billing\"\nrelease=\"v2\"\ntier=gold\n", io.EOF⟩) :
    ∃ s info, New 1 = (some s, none) ∧ s.GetAppInfo env fs = some (info, none) ∧
      info.AppName = lit "billing" ∧ info.Release = lit "v2" ∧ info.Namespace = [] ∧
      info.PodName = os.Getenv env "MY_POD_NAME" ∧
      ∀ k, info.Labels k = if k = lit "tier" then some (lit "gold") else none := by
  refine ⟨AppInfoService.appInfoBaseline,
    run (baselineStart env) (lit "app=\"billing\"\nrelease=\"v2\"\ntier=gold\n"),
    rfl, ?_, ?_, ?_, ?_, ?_, ?_⟩
  · exact baseline_open_ok env fs _ hfs
  · rfl
  · rfl
  · rfl
  · rfl
  · intro k; rfl

/-- Witness of C15: the scenario with the pod name canary-1. -/
theorem scenario_billing_baseline_witness :
    ∃ s info, New 1 = (some s, none) ∧
      s.GetAppInfo sampleEnv
        (labelFile (lit "app=\"billing\"\nrelease=\"v2\"\ntier=gold\n")) = some (info, none) ∧
      info.AppName = lit "billing" ∧ info.Release = lit "v2" ∧ info.Namespace = [] ∧
      info.PodName = lit "canary-1" ∧
      info.Labels (lit "tier") = some (lit "gold") ∧ info.Labels (lit "app") = none := by
  obtain ⟨s, info, e0, e1, e2, e3, e4, e5, e6⟩ := scenario_billing_baseline sampleEnv
    (labelFile (lit "app=\"billing\"\nrelease=\"v2\"\ntier=gold\n")) rfl
  exact ⟨s, info, e0, e1, e2, e3, e4, e5.trans (by decide), (e6 _).trans (by decide),
    (e6 _).trans (by decide)⟩

/-! ## What a stored value can contain -/

theorem TrimLeftFunc_subset (u : GoString) (f : Nat → Bool) (b : Nat)
    (h : b ∈ strings.TrimLeftFunc u f) : b ∈ u := by
  unfold strings.TrimLeftFunc at h
  dsimp only at h
  split_ifs at h
  · simp at h
  · exact List.mem_of_mem_drop h

theorem TrimRightFunc_subset (u : GoString) (f : Nat → Bool) (b : Nat)
    (h : b ∈ strings.TrimRightFunc u f) : b ∈ u := by
  unfold strings.TrimRightFunc goSlice at h
  exact List.mem_of_mem_take (List.mem_of_mem_drop h)

/-- Trimming keeps only bytes of the text. -/
theorem TrimSpace_subset (u : GoString) (b : Nat) (h : b ∈ strings.TrimSpace u) : b ∈ u :=
  TrimLeftFunc_subset u _ b (TrimRightFunc_subset _ _ b h)

theorem afterEq_subset (t : GoString) (b : Nat) (h : b ∈ afterEq t) : b ∈ t :=
  (List.dropWhile_sublist _).subset ((List.tail_sublist _).subset h)

theorem valueOf_noNewline (t : GoString) (h : 0x0A ∉ t) : 0x0A ∉ valueOf t := by
  intro hm
  unfold valueOf at hm
  exact h (afterEq_subset t _ (TrimSpace_subset _ _ (List.mem_of_mem_filter hm)))

/-- The value of a line of a file has no double quote and no newline. -/
theorem valueOf_clean (l t : GoString) (ht : 0x0A ∉ t) (hl : l = t ∨ l = t ++ [0x0A])
    (he : 0x3D ∈ l) : noQuoteNoNewline (valueOf l) := by
  constructor
  · intro hm
    unfold valueOf at hm
    have := (List.mem_filter.1 hm).2
    simp at this
  · rcases hl with hl | hl
    · subst hl; exact valueOf_noNewline _ ht
    · subst hl
      rw [valueOf_append_newline t ((mem_append_newline t).1 he)]
      exact valueOf_noNewline t ht

theorem assign_valuesClean (info : AppInfo) (k v : GoString) (h : valuesClean info)
    (hv : noQuoteNoNewline v) : valuesClean (info.assign k v) := by
  obtain ⟨h1, h2, h3⟩ := h
  refine ⟨?_, ?_, ?_⟩
  · rw [assign_AppName]; split_ifs
    · exact hv
    · exact h1
  · rw [assign_Release]; split_ifs
    · exact h2
    · exact hv
    · exact h2
  · intro x w hx
    rw [assign_Labels] at hx
    split_ifs at hx
    · exact h3 x w hx
    · exact h3 x w hx
    · cases hx; exact hv
    · exact h3 x w hx

theorem parseLine_valuesClean (info : AppInfo) (l t : GoString) (h : valuesClean info)
    (ht : 0x0A ∉ t) (hl : l = t ∨ l = t ++ [0x0A]) : valuesClean (parseLine info l) := by
  rw [parseLine_eq]
  split_ifs with hc
  · exact assign_valuesClean _ _ _ h (valueOf_clean l t ht hl hc.1)
  · exact h

theorem foldl_valuesClean (lines : List GoString) (info : AppInfo) (h : valuesClean info)
    (hl : ∀ l ∈ lines, ∃ t, 0x0A ∉ t ∧ (l = t ∨ l = t ++ [0x0A])) :
    valuesClean (lines.foldl parseLine info) := by
  induction lines generalizing info with
  | nil => exact h
  | cons x xs ih =>
    rw [List.foldl_cons]
    obtain ⟨t, e1, e2⟩ := hl x (List.mem_cons_self _ _)
    exact ih _ (parseLine_valuesClean info x t h e1 e2)
      (fun l hm => hl l (List.mem_cons_of_mem _ hm))

theorem startRecord_valuesClean (s : AppInfoService) (env : Env) :
    valuesClean (startRecord s env) := by
  cases s <;> exact ⟨by simp [noQuoteNoNewline, startRecord, baselineStart, namespaceStart,
    AppInfo.zero], by simp [noQuoteNoNewline, startRecord, baselineStart, namespaceStart,
    AppInfo.zero], fun k v hk => by cases hk⟩

/-- C16: for variants 1 and 3, every environment and every state of the label
file, AppName, Release and every value in Labels of the returned record have no
double quote and no newline. -/
theorem file_values_no_quote_no_newline (s : AppInfoService) (env : Env) (fs : FileSystem)
    (hs : s = AppInfoService.appInfoBaseline ∨ s = AppInfoService.appInfoWithNamespace) :
    ∃ info err, s.GetAppInfo env fs = some (info, err) ∧
      noQuoteNoNewline info.AppName ∧ noQuoteNoNewline info.Release ∧
      ∀ k v, info.Labels k = some v → noQuoteNoNewline v := by
  rcases h : fs "/etc/labels" with e | f
  · exact ⟨_, _, variant_open_error s env fs e hs h, startRecord_valuesClean s env⟩
  · exact ⟨_, _, variant_open_ok s env fs f hs h,
      foldl_valuesClean _ _ (startRecord_valuesClean s env) (splitLines_shape f.data)⟩

/-- Witness of C16: the quotes of `app="a"b"` and the newline that ends the
line are not in AppName. -/
theorem file_values_no_quote_no_newline_witness :
    ∃ info err, AppInfoService.appInfoBaseline.GetAppInfo sampleEnv
        (labelFile (lit "app=\"a\"b\"\n")) = some (info, err) ∧
      0x22 ∉ info.AppName ∧ 0x0A ∉ info.AppName := by
  obtain ⟨info, err, e1, e2, _⟩ := file_values_no_quote_no_newline
    AppInfoService.appInfoBaseline sampleEnv (labelFile (lit "app=\"a\"b\"\n")) (Or.inl rfl)
  exact ⟨info, err, e1, e2.1, e2.2⟩

/-- C17: white space is trimmed before the double quotes are removed and not
again afterwards: for the one-line file `k=" v "` variants 1 and 3 store
Labels[k] = ` v `, which begins and ends with a space and is not its own
trimmed form. -/
theorem stored_value_not_trimmed (env : Env) :
    ∃ info1 info3,
      AppInfoService.appInfoBaseline.GetAppInfo env (labelFile (lit "k=\" v \"")) =
        some (info1, none) ∧
      AppInfoService.appInfoWithNamespace.GetAppInfo env (labelFile (lit "k=\" v \"")) =
        some (info3, none) ∧
      info1.Labels (lit "k") = some (lit " v ") ∧ info3.Labels (lit "k") = some (lit " v ") ∧
      (lit " v ").head? = some 0x20 ∧ (lit " v ").getLast? = some 0x20 ∧
      strings.TrimSpace (lit " v ") ≠ lit " v " := by
  refine ⟨run (baselineStart env) (lit "k=\" v \""), run (namespaceStart env) (lit "k=\" v \""),
    ?_, ?_, rfl, rfl, by decide, by decide, by decide⟩
  · exact baseline_open_ok env (labelFile (lit "k=\" v \"")) ⟨lit "k=\" v \"", io.EOF⟩ rfl
  · exact namespace_open_ok env (labelFile (lit "k=\" v \"")) ⟨lit "k=\" v \"", io.EOF⟩ rfl
